import Mathlib

/-!
# simple-file-compression: the archive engine of `fc.h`

A shallow embedding of `fc::File` (the index-record codec) and of
`fc::FileCompressor` (`add`, `compress`, `decompress`) from `File Compression/fc.h`,
and of `cl::ProcessArguments`, `cl::hasFlag` and `main` from `File Compression/main.cpp`,
followed by theorems about the container format and the command line.

Modelling conventions

* A byte is a `Fin 256`; a `std::string` is a list of bytes (it may hold NUL bytes).
* `size_t`, `fsize` (`long long`) and `std::streamoff` are 64 bits wide and stored
  little-endian.  Integer variables are carried as `Int`/`Nat`; the reduction modulo
  `2 ^ 64` is explicit where a value is stored to or loaded from its 8 bytes.
* A call can end in three ways (`Exit`): it returns; an exception leaves it, and since
  the program has no handler it then ends in `std::terminate`; or a signed counter
  overflows and its behaviour is undefined.  `File.deserialize`, `copyLoop`,
  `decompressStep`, `decompressLoop` and `decompress` describe the call that returns:
  `resize` has returned and the counters `fSize` and `processed` are carried exactly.
  `File.deserializeFull`, `copyLoopFull`, `decompressStepFull`, `decompressLoopFull` and
  `decompressFull` are the same code with all three exits, and agree with the former
  where the call returns (`decompressFull_done`).
* A filesystem is a flat map from file names to contents.  A stream is opened on the
  C string of the path (the bytes before the first NUL); the empty name cannot be
  opened.  Opening for output always succeeds on a non-empty name.
* An input stream holds the content the file had when it was opened, a get position
  and the sticky `failbit`.  In this program `eofbit` is only ever set together with
  `failbit`, and `badbit` never, so `good()` is `!fail()`.
* An output stream is flushed into the filesystem at `close()`; its bytes are not
  visible to readers before.
* `new char[BYTES_PER_CHUNK]` yields indeterminate memory: its initial content is the
  parameter `junk`; this allocation of one chunk succeeds.  `std::string::resize` is
  granted up to the parameter `max_size` and throws above it: `std::length_error` above
  `std::string::max_size()`, `std::bad_alloc` for a length within it that the allocator
  cannot serve.  No run is granted `2 ^ 63` bytes, so the theorems take
  `max_size < 2 ^ 63`.
* The loops are defined by recursion on a bound of their number of passes; the bound
  built into `copy` and `decompress` is never reached before the loop condition fails
  (`copyLoop_fuel`, `decompressLoop_fuel`).  `copyLoopTrace` and `decompressLoopTrace`
  are the same loops with a record of their passes.
* `compress` copies whole files with `copyLoop`: a source of more than
  `2 ^ 63 - 2 ^ 20` bytes, for which `fSize` would overflow, is not considered.
* An element of `argv` is a list of bytes.  `main` ends by returning a code, or in
  `std::terminate` when an exception leaves `decompress` (`Outcome.aborted`), or with
  undefined behaviour (`Outcome.undefined`) where it indexes the `end()` iterator or a
  counter of `decompress` overflows.
-/

namespace fc

/-! ## Bytes, strings and fixed-width integers -/

abbrev Byte := Fin 256

/-- A `std::string`: a sequence of bytes. -/
abbrev Path := List Byte

/-- The name a stream is opened on: `path.c_str()` read as a C string, so the bytes
before the first NUL. -/
def cstr (p : Path) : Path := p.takeWhile (fun b => b != 0)

/-- The object representation of an integer: its `k` low-order bytes, least
significant first (`out.write((char*)&x, k)` on a little-endian machine). -/
def leBytes : Nat → Nat → List Byte
  | 0, _ => []
  | k + 1, n => ⟨n % 256, Nat.mod_lt n (by decide)⟩ :: leBytes k (n / 256)

/-- The unsigned value held by a little-endian byte sequence. -/
def leValue : List Byte → Nat
  | [] => 0
  | b :: bs => b.val + 256 * leValue bs

/-- The 8 bytes of a `size_t`. -/
def encodeU64 (n : Nat) : List Byte := leBytes 8 (n % 2 ^ 64)

/-- The `size_t` held by 8 bytes. -/
def decodeU64 (bs : List Byte) : Nat := leValue bs

/-- The 8 bytes of a `long long` (two's complement). -/
def encodeS64 (x : Int) : List Byte := leBytes 8 (x % 2 ^ 64).toNat

/-- The `long long` held by 8 bytes (two's complement). -/
def decodeS64 (bs : List Byte) : Int :=
  if leValue bs < 2 ^ 63 then (leValue bs : Int) else (leValue bs : Int) - 2 ^ 64

/-- The number of bytes of `size_t`, `fsize` and `std::streamoff`. -/
def WORD : Nat := 8

/-- The macro `BYTES_PER_CHUNK`. -/
def BYTES_PER_CHUNK : Nat := 0x100000

/-! ## Filesystem and streams -/

/-- A flat filesystem: the content of every existing file, by name. -/
abbrev FS := Path → Option (List Byte)

namespace FS

/-- Create or replace the file `name`. -/
def write (fs : FS) (name : Path) (content : List Byte) : FS :=
  fun q => if q = name then some content else fs q

/-- The content found when `path` is opened for reading: the file named by its C
string, none for the empty name. -/
def lookup (fs : FS) (path : Path) : Option (List Byte) :=
  if cstr path = [] then none else fs (cstr path)

end FS

/-- The memory behind `char* buffer`, by index. -/
abbrev Buffer := Nat → Byte

namespace Buffer

/-- The buffer after `got` has been stored at its start. -/
def fill (buf : Buffer) (got : List Byte) : Buffer := fun i => got.getD i (buf i)

/-- The first `n` bytes of the buffer. -/
def take (buf : Buffer) (n : Nat) : List Byte := (List.range n).map buf

end Buffer

/-- A `std::ifstream`: the content of the file it was opened on, the get position and
`failbit`. -/
structure IStream where
  data : List Byte
  pos : Nat
  fail : Bool
  deriving DecidableEq, Repr

namespace IStream

/-- The call `in.open(path, binary | in | ate)`: positioned at the end of the file, or
failed when the file cannot be opened.  The second component is `is_open()`. -/
def openAte (fs : FS) (path : Path) : IStream × Bool :=
  match fs.lookup path with
  | none => ({ data := [], pos := 0, fail := true }, false)
  | some d => ({ data := d, pos := d.length, fail := false }, true)

/-- The transfer behind `in.read(_, n)`: on a failed stream nothing is extracted (and
`failbit` is set again).  Otherwise the available bytes, at most `n`, are extracted and
the position advances past them; fewer than `n` sets `eofbit | failbit`. -/
def get (s : IStream) (n : Nat) : IStream × List Byte :=
  if s.fail then (s, [])
  else
    let got := (s.data.drop s.pos).take n
    ({ s with pos := s.pos + got.length, fail := decide (got.length < n) }, got)

/-- The call `in.read(target, n)` where `target` is the current content of the memory
read into (at least `n` bytes): the extracted bytes replace its first bytes. -/
def read (s : IStream) (n : Nat) (target : List Byte) : IStream × List Byte :=
  let r := s.get n
  (r.1, r.2 ++ target.drop r.2.length)

/-- The call `in.read(buffer, n)` on the chunk buffer. -/
def readBuf (s : IStream) (n : Nat) (buf : Buffer) : IStream × Buffer :=
  let r := s.get n
  (r.1, buf.fill r.2)

/-- The call `in.seekg(...)` with the absolute target already computed: nothing on a
failed stream, `failbit` when the target is negative, the new position otherwise (a
position past the end is accepted). -/
def seekTo (s : IStream) (target : Int) : IStream :=
  if s.fail then s
  else if target < 0 then { s with fail := true }
  else { s with pos := target.toNat }

/-- The call `in.seekg(off, std::ios::beg)`. -/
def seekBeg (s : IStream) (off : Int) : IStream := s.seekTo off

/-- The call `in.seekg(off, std::ios::cur)`. -/
def seekCur (s : IStream) (off : Int) : IStream := s.seekTo (s.pos + off)

/-- The call `in.seekg(off, std::ios::end)`. -/
def seekEnd (s : IStream) (off : Int) : IStream := s.seekTo (s.data.length + off)

/-- The call `in.tellg()`: `-1` on a failed stream. -/
def tellg (s : IStream) : Int := if s.fail then -1 else s.pos

/-- Read a `size_t` over the variable `old`. -/
def readU64 (s : IStream) (old : Nat) : IStream × Nat :=
  let r := s.read WORD (encodeU64 old)
  (r.1, decodeU64 r.2)

/-- Read a `long long` over the variable `old`. -/
def readS64 (s : IStream) (old : Int) : IStream × Int :=
  let r := s.read WORD (encodeS64 old)
  (r.1, decodeS64 r.2)

end IStream

/-- A `std::ofstream`: the name it was opened on, whether it is usable, and the bytes
written so far. -/
structure OStream where
  name : Path
  ok : Bool
  data : List Byte
  deriving DecidableEq, Repr

namespace OStream

/-- The call `out.open(path, binary | out | trunc)`: the file is created or truncated;
the empty name cannot be opened and leaves the stream failed. -/
def openTrunc (fs : FS) (path : Path) : FS × OStream :=
  if cstr path = [] then (fs, { name := [], ok := false, data := [] })
  else (fs.write (cstr path) [], { name := cstr path, ok := true, data := [] })

/-- The call `out.write(p, n)` with the `n` bytes at `p`. -/
def write (o : OStream) (bytes : List Byte) : OStream :=
  if o.ok then { o with data := o.data ++ bytes } else o

/-- The call `out.tellp()`: `-1` on a failed stream. -/
def tellp (o : OStream) : Int := if o.ok then o.data.length else -1

/-- The call `out.close()`: the bytes written reach the file. -/
def close (o : OStream) (fs : FS) : FS := if o.ok then fs.write o.name o.data else fs

end OStream

/-- The lines `decompress` sends to `std::clog`. -/
inductive LogLine where
  | loading (file : Path)
  | extracting (path : Path) (chunk total : Int)
  | extracted (file : Path)
  deriving DecidableEq, Repr

/-! ## `fc::File` and its codec -/

/-- The struct `fc::File`; its `fsize size` and `std::streamoff offset` are signed
64-bit integers, carried as `Int`. -/
structure File where
  path : Path
  size : Int
  offset : Int
  deriving DecidableEq, Repr

namespace File

/-- The constructor `File() : path(), size(), offset()`. -/
def fresh : File := { path := [], size := 0, offset := 0 }

/-- The bytes `File::serialize` writes to `out`, in the order of its four `write`
calls. -/
def serialize (f : File) : List Byte :=
  encodeU64 f.path.length ++ f.path ++ encodeS64 f.size ++ encodeS64 f.offset

/-- The member `File::deserialize`, run on the object `f`, when it returns: the call
`path.resize(len, '\0')`, where it is reached, has grown the string.  The exit by
exception is in `File.deserializeFull`. -/
def deserialize (f : File) (s : IStream) : File × IStream :=
  -- size_t len = 0; in.read((char*)&len, sizeof(size_t));
  let r1 := s.readU64 0
  let len := r1.2
  -- if (path.size() < len) path.resize(len, '\0');
  let path1 := if f.path.length < len then
      f.path ++ List.replicate (len - f.path.length) (0 : Byte) else f.path
  -- in.read(&path[0], len);
  let r2 := r1.1.read len path1
  -- in.read((char*)&size, sizeof(fsize));
  let r3 := r2.1.readS64 f.size
  -- in.read((char*)&offset, sizeof(std::streamoff));
  let r4 := r3.1.readS64 f.offset
  ({ path := r2.2, size := r3.2, offset := r4.2 }, r4.1)

/-- The number of index bytes one entry accounts for: `path.size() + sizeof(size_t) +
sizeof(fsize) + sizeof(std::streamoff)`. -/
def recordLength (f : File) : Int := (f.path.length : Int) + WORD + WORD + WORD

end File

/-! ## `fc::FileCompressor` -/

/-- The line `std::clog << "Extracting " << fl.path << " (" << fSize / BYTES_PER_CHUNK
<< " / " << fl.size / BYTES_PER_CHUNK << ")\n"` of the copy loop of `decompress`; the
copy loop of `compress` logs nothing (`logAs` is none). -/
def logChunk (logAs : Option Path) (size fSize : Int) (log : List LogLine) : List LogLine :=
  match logAs with
  | some p => log ++ [LogLine.extracting p (fSize / BYTES_PER_CHUNK) (size / BYTES_PER_CHUNK)]
  | none => log

/-- The state of the chunked copy loop. -/
structure CopyState where
  inp : IStream
  buf : Buffer
  out : OStream
  log : List LogLine

/-- The loop `for (fsize fSize = 0; fSize < size; fSize += BYTES_PER_CHUNK)` of
`compress` and of `decompress`, entered at `fSize`.  The two loops differ only in the
log line of `decompress`, written when `logAs` names the entry.  Every iteration adds
`BYTES_PER_CHUNK` to `fSize`, so `fuel` bounds the iterations left.  The counter `fSize`
is carried exactly; `copyLoopFull` is the loop with the overflow of `long long`. -/
def copyLoop (logAs : Option Path) (size : Int) : Nat → Int → CopyState → CopyState
  | 0, _, st => st
  | fuel + 1, fSize, st =>
    if fSize < size then
      let log := logChunk logAs size fSize st.log
      -- fsize sz = (size - fSize) < BYTES_PER_CHUNK ? (size - fSize) : BYTES_PER_CHUNK;
      let sz : Int := if size - fSize < BYTES_PER_CHUNK then size - fSize else BYTES_PER_CHUNK
      -- in.read(buffer, sz); out.write(buffer, sz);
      let r := st.inp.readBuf sz.toNat st.buf
      copyLoop logAs size fuel (fSize + BYTES_PER_CHUNK)
        { inp := r.1, buf := r.2, out := st.out.write (r.2.take sz.toNat), log := log }
    else st

/-- The copy loop run from `fSize = 0`; `size.toNat` iterations are more than it can
take. -/
def copy (logAs : Option Path) (size : Int) (st : CopyState) : CopyState :=
  copyLoop logAs size size.toNat 0 st

/-- The overload `FileCompressor::add(std::string)` on the vector `files`. -/
def addString (files : List File) (file : Path) : List File :=
  if files.any (fun f => decide (f.path = file)) then files
  else files ++ [{ File.fresh with path := file }]

/-- The overload `FileCompressor::add(fc::File)` on the vector `files`. -/
def addFile (files : List File) (file : File) : List File :=
  if files.any (fun f => decide (f.path = file.path)) then files
  else files ++ [file]

/-- The body of the first `for_each` of `compress` for one entry: the entry after the
call and the destination stream. -/
def compressEntry (fs : FS) (junk : Buffer) (file : File) (out : OStream) : File × OStream :=
  let o := IStream.openAte fs file.path
  -- if (!inFile.is_open()) return;
  if !o.2 then (file, out)
  else
    -- file.size = inFile.tellg(); file.offset = out.tellp();
    let file1 : File := { file with size := o.1.tellg, offset := out.tellp }
    let st := copy none file1.size
      { inp := o.1.seekBeg 0, buf := junk, out := out, log := [] }
    (file1, st.out)

/-- The first `for_each` of `compress`: the entries after it and the destination
stream. -/
def compressData (fs : FS) (junk : Buffer) : List File → OStream → List File × OStream
  | [], out => ([], out)
  | f :: rest, out =>
    let r := compressEntry fs junk f out
    let rs := compressData fs junk rest r.2
    (r.1 :: rs.1, rs.2)

/-- The second `for_each` of `compress`: every entry is serialized. -/
def serializeAll (files : List File) (out : OStream) : OStream :=
  files.foldl (fun o f => o.write f.serialize) out

/-- The `std::accumulate` of `compress`. -/
def accumulateIndex (files : List File) : Int :=
  files.foldl (fun val f => val + (f.path.length : Int) + WORD + WORD + WORD) 0

/-- The member `FileCompressor::compress(outFile)` on the vector `files`: the
filesystem and the vector after the call. -/
def compress (fs : FS) (junk : Buffer) (files : List File) (outFile : Path) : FS × List File :=
  let o := OStream.openTrunc fs outFile
  let d := compressData o.1 junk files o.2
  let out := serializeAll d.1 d.2
  let size := accumulateIndex d.1
  let out := out.write (encodeS64 size)
  (out.close o.1, d.1)

/-- The state of the index loop of `decompress`. -/
structure UnpackState where
  fs : FS
  inp : IStream
  log : List LogLine
  processed : Int

/-- One pass through the body of `while (processed < size)`, when it is completed
(`decompressStepFull` has the other exits). -/
def decompressStep (junk : Buffer) (st : UnpackState) : UnpackState :=
  -- fc::File fl = { }; fl.deserialize(in);
  let d := File.fresh.deserialize st.inp
  let fl := d.1
  -- out.open(fl.path, binary | out | trunc);
  let o := OStream.openTrunc st.fs fl.path
  -- in.seekg(fl.offset, std::ios::beg); the copy loop
  let c := copy (some fl.path) fl.size
    { inp := d.2.seekBeg fl.offset, buf := junk, out := o.2, log := st.log }
  -- out.close(); processed += ...
  { fs := c.out.close o.1, inp := c.inp, log := c.log,
    processed := st.processed + fl.recordLength }

/-- The loop `while (processed < size)` of `decompress`.  Every pass adds at least 24
to `processed`, so `fuel` bounds the passes left. -/
def decompressLoop (junk : Buffer) (size : Int) : Nat → UnpackState → UnpackState
  | 0, st => st
  | fuel + 1, st =>
    if st.processed < size then decompressLoop junk size fuel (decompressStep junk st)
    else st

/-- The member `FileCompressor::decompress(file)` when it returns: the filesystem after
the call and the lines logged (`decompressFull` has the other exits). -/
def decompress (fs : FS) (junk : Buffer) (file : Path) : FS × List LogLine :=
  let o := IStream.openAte fs file
  -- in.seekg(-(long long)sizeof(fsize), std::ios::cur);
  let in1 := o.1.seekCur (-(WORD : Int))
  -- in.read((char*)&size, sizeof(fsize));   with fsize size = 0
  let r := in1.readS64 0
  let size := r.2
  -- in.seekg(-(long long)sizeof(fsize) - size, std::ios::end);
  let in2 := r.1.seekEnd (-(WORD : Int) - size)
  let st := decompressLoop junk size size.toNat
    { fs := fs, inp := in2, log := [LogLine.loading file], processed := 0 }
  (st.fs, st.log ++ [LogLine.extracted file])

/-! ## `decompress` with all its exits -/

/-- The largest `long long`. -/
def LLONG_MAX : Int := 2 ^ 63 - 1

/-- The smallest `long long`. -/
def LLONG_MIN : Int := -2 ^ 63

/-- How a call ends.  `done`: it returns, in the state given.  `thrown`: an exception
leaves it, in the state given; nothing in this program catches an exception, so the
program then ends in `std::terminate` without an exit code of `main`.  `undefined`: a
signed integer overflows, the behaviour is undefined. -/
inductive Exit (α : Type) where
  | done (a : α)
  | thrown (a : α)
  | undefined
  deriving DecidableEq

/-- The state in which a call returned, if it did. -/
def Exit.returned {α : Type} : Exit α → Option α
  | Exit.done a => some a
  | Exit.thrown _ => none
  | Exit.undefined => none

/-- The state in which an exception left a call, if one did. -/
def Exit.raised {α : Type} : Exit α → Option α
  | Exit.done _ => none
  | Exit.thrown a => some a
  | Exit.undefined => none

/-- The member `File::deserialize`, run on the object `f`, with its exit by exception.
The call `path.resize(len, '\0')` is reached when `path.size() < len` and throws when
`len` exceeds `max_size`, the length up to which `resize` is granted; the object is then
unchanged and the stream is as the read of `len` left it.  Otherwise the call goes on
and returns as `deserialize` says. -/
def File.deserializeFull (max_size : Nat) (f : File) (s : IStream) : Exit (File × IStream) :=
  -- size_t len = 0; in.read((char*)&len, sizeof(size_t));
  let r1 := s.readU64 0
  -- if (path.size() < len) path.resize(len, '\0');
  if f.path.length < r1.2 ∧ max_size < r1.2 then Exit.thrown (f, r1.1)
  else Exit.done (f.deserialize s)

/-- The loop `for (fsize fSize = 0; fSize < size; fSize += BYTES_PER_CHUNK)` of
`compress` and of `decompress`, entered at `fSize`, with the overflow of its counter:
no result when `fSize += BYTES_PER_CHUNK` leaves the range of `long long`.  Otherwise
the state after the loop, as in `copyLoop`, and the chunk size `sz` of every pass, in
order.  The loop throws nothing.  As in `copyLoop`, `fuel` bounds the passes left. -/
def copyLoopFull (logAs : Option Path) (size : Int) :
    Nat → Int → CopyState → Option (CopyState × List Nat)
  | 0, _, st => some (st, [])
  | fuel + 1, fSize, st =>
    if fSize < size then
      let log := logChunk logAs size fSize st.log
      -- fsize sz = (size - fSize) < BYTES_PER_CHUNK ? (size - fSize) : BYTES_PER_CHUNK;
      let sz : Int := if size - fSize < BYTES_PER_CHUNK then size - fSize else BYTES_PER_CHUNK
      -- in.read(buffer, sz); out.write(buffer, sz);
      let r := st.inp.readBuf sz.toNat st.buf
      -- fSize += BYTES_PER_CHUNK
      if LLONG_MAX < fSize + BYTES_PER_CHUNK then none
      else
        (copyLoopFull logAs size fuel (fSize + BYTES_PER_CHUNK)
          { inp := r.1, buf := r.2, out := st.out.write (r.2.take sz.toNat), log := log }).map
          (fun t => (t.1, sz.toNat :: t.2))
    else some (st, [])

/-- The copy loop with the overflow of its counter, run from `fSize = 0`. -/
def copyFull (logAs : Option Path) (size : Int) (st : CopyState) :
    Option (CopyState × List Nat) :=
  copyLoopFull logAs size size.toNat 0 st

/-- One pass through the body of `while (processed < size)`, with all its exits.  An
exception thrown by `deserialize` leaves the pass before `out.open`: no file has been
touched and `processed` is unchanged.  The behaviour is undefined when the counter of the
copy loop overflows, or when `(fsize)fl.path.size() + 8 + 8 + 8` or the sum
`processed += ...` leaves the range of `long long`. -/
def decompressStepFull (max_size : Nat) (junk : Buffer) (st : UnpackState) : Exit UnpackState :=
  -- fc::File fl = { }; fl.deserialize(in);
  match File.fresh.deserializeFull max_size st.inp with
  | Exit.thrown d => Exit.thrown { st with inp := d.2 }
  | Exit.undefined => Exit.undefined
  | Exit.done d =>
    let fl := d.1
    -- out.open(fl.path, binary | out | trunc);
    let o := OStream.openTrunc st.fs fl.path
    -- in.seekg(fl.offset, std::ios::beg); the copy loop
    match copyFull (some fl.path) fl.size
        { inp := d.2.seekBeg fl.offset, buf := junk, out := o.2, log := st.log } with
    | none => Exit.undefined
    | some c =>
      -- out.close(); processed += (fsize)fl.path.size() + 8 + 8 + 8;
      if LLONG_MAX < fl.recordLength ∨ LLONG_MAX < st.processed + fl.recordLength then
        Exit.undefined
      else
        Exit.done { fs := c.1.out.close o.1, inp := c.1.inp, log := c.1.log,
                    processed := st.processed + fl.recordLength }

/-- The loop `while (processed < size)` of `decompress` with all its exits, and the
number of passes it began.  A pass that does not complete ends the loop.  As in
`decompressLoop`, `fuel` bounds the passes left (`decompressLoopFull_exits`). -/
def decompressLoopFull (max_size : Nat) (junk : Buffer) (size : Int) :
    Nat → UnpackState → Exit UnpackState × Nat
  | 0, st => (Exit.done st, 0)
  | fuel + 1, st =>
    if st.processed < size then
      match decompressStepFull max_size junk st with
      | Exit.done st1 =>
        let r := decompressLoopFull max_size junk size fuel st1
        (r.1, r.2 + 1)
      | Exit.thrown st1 => (Exit.thrown st1, 1)
      | Exit.undefined => (Exit.undefined, 1)
    else (Exit.done st, 0)

/-- The member `FileCompressor::decompress(file)` with all its exits: the filesystem and
the lines sent to `std::clog` when the call returns or is left by an exception.  The
offset `-(long long)sizeof(fsize) - size` of the second seek overflows when `size`
exceeds `2 ^ 63 - 8`.  The success line is written only behind the loop. -/
def decompressFull (max_size : Nat) (fs : FS) (junk : Buffer) (file : Path) :
    Exit (FS × List LogLine) :=
  let o := IStream.openAte fs file
  -- in.seekg(-(long long)sizeof(fsize), std::ios::cur);
  let in1 := o.1.seekCur (-(WORD : Int))
  -- in.read((char*)&size, sizeof(fsize));   with fsize size = 0
  let r := in1.readS64 0
  let size := r.2
  -- in.seekg(-(long long)sizeof(fsize) - size, std::ios::end);
  if -(WORD : Int) - size < LLONG_MIN then Exit.undefined
  else
    let in2 := r.1.seekEnd (-(WORD : Int) - size)
    match (decompressLoopFull max_size junk size size.toNat
        { fs := fs, inp := in2, log := [LogLine.loading file], processed := 0 }).1 with
    | Exit.done st => Exit.done (st.fs, st.log ++ [LogLine.extracted file])
    | Exit.thrown st => Exit.thrown (st.fs, st.log)
    | Exit.undefined => Exit.undefined

/-- The bytes a stream still yields: those from its position on, none when it has
failed. -/
def IStream.rest (s : IStream) : List Byte := if s.fail then [] else s.data.drop s.pos

/-! ## Describing a container -/

/-- The filesystem as `compress` reads it: the destination has just been created or
truncated by `out.open`. -/
def packView (fs : FS) (outFile : Path) : FS := (OStream.openTrunc fs outFile).1

/-- The payload an entry contributes when the sources are read from `view`: the content
of its file, nothing when the file cannot be opened. -/
def payload (view : FS) (f : File) : List Byte := (view.lookup f.path).getD []

/-- The data region: the payloads in entry order. -/
def dataRegion (view : FS) (files : List File) : List Byte :=
  (files.map (payload view)).flatten

/-- The entries after the data pass that starts at write position `pos`: an entry whose
file opens gets its size and the current position, an entry whose file does not open is
left as it was. -/
def placed (view : FS) : Nat → List File → List File
  | _, [] => []
  | pos, f :: rest =>
    match view.lookup f.path with
    | none => f :: placed view pos rest
    | some c => { f with size := c.length, offset := pos } :: placed view (pos + c.length) rest

/-- The index region: the records of the entries, in order. -/
def indexRegion (files : List File) : List Byte := (files.map File.serialize).flatten

/-- The trailer of a container: its last 8 bytes read as a `long long`. -/
def trailerOf (bytes : List Byte) : Int := decodeS64 (bytes.drop (bytes.length - WORD))

/-! ## Registration, as a sequence of calls -/

/-- One call of `add`: the `std::string` overload or the `fc::File` overload. -/
inductive AddArg where
  | path (p : Path)
  | file (f : File)
  deriving DecidableEq, Repr

/-- One call of `add` on the vector `files`. -/
def add (files : List File) : AddArg → List File
  | AddArg.path p => addString files p
  | AddArg.file f => addFile files f

/-- The vector of a fresh `FileCompressor` after the calls. -/
def addAll (calls : List AddArg) : List File := calls.foldl add []

/-- The 8 bytes of an unsigned value, least significant first: byte `i` is
`n / 256 ^ i mod 256`. -/
def littleEndian8 (n : Nat) : List Byte :=
  (List.range 8).map (fun i => (⟨n / 256 ^ i % 256, Nat.mod_lt _ (by decide)⟩ : Byte))

/-- The unsigned value whose bits are the 64-bit two's-complement encoding of `x`. -/
def twosComplement64 (x : Int) : Nat := if 0 ≤ x then x.toNat else (2 ^ 64 + x).toNat

/-! ## The layout of a container, in words -/

/-- The entry registered by `add(std::string)`. -/
def entryOf (p : Path) : File := { File.fresh with path := p }

/-- Deserialize records one after the other, with no seek in between, while fewer than
`trailer` bytes have been consumed: the records read and the bytes consumed. -/
def readRecords (trailer : Int) : Nat → Int → IStream → List File × Int
  | 0, consumed, _ => ([], consumed)
  | fuel + 1, consumed, s =>
    if consumed < trailer then
      let d := File.fresh.deserialize s
      let r := readRecords trailer fuel (consumed + d.1.recordLength) d.2
      (d.1 :: r.1, r.2)
    else ([], consumed)

/-- The index of a container read back: start `trailer` bytes before the trailer and
read records until `trailer` bytes are consumed (every record consumes at least 24
bytes, so `trailer` records are more than can be read). -/
def readIndex (bytes : List Byte) : List File × Int :=
  readRecords (trailerOf bytes) (trailerOf bytes).toNat 0
    ⟨bytes, ((bytes.length : Int) - WORD - trailerOf bytes).toNat, false⟩

/-- The values a `long long` can hold. -/
abbrev fitsS64 (x : Int) : Prop := -2 ^ 63 ≤ x ∧ x < 2 ^ 63

/-- The byte ranges `[offset, offset + size)` of two entries have no position in
common. -/
def disjointRanges (a b : File) : Prop :=
  ∀ x : Int, ¬ (a.offset ≤ x ∧ x < a.offset + a.size ∧ b.offset ≤ x ∧ x < b.offset + b.size)

/-- The records read back from a container describe pairwise disjoint byte ranges that
lie in the data region, the bytes before the index. -/
def IndexWithinData (bytes : List Byte) : Prop :=
  (readIndex bytes).1.Pairwise disjointRanges ∧
  ∀ e ∈ (readIndex bytes).1,
    0 ≤ e.offset ∧ e.offset + e.size ≤ (bytes.length : Int) - WORD - trailerOf bytes

/-! ## The scenario of the specification -/

/-- The name `a.txt`. -/
def aTxt : Path := [97, 46, 116, 120, 116]

/-- The name `b.txt`. -/
def bTxt : Path := [98, 46, 116, 120, 116]

/-- The name `out.zp2`. -/
def outZp2 : Path := [111, 117, 116, 46, 122, 112, 50]

/-- The bytes `hi`. -/
def hi : List Byte := [104, 105]

/-- A directory without files. -/
def emptyDisk : FS := fun _ => none

/-- A directory holding `a.txt` = `hi` and the empty `b.txt`. -/
def scenarioDisk : FS := (emptyDisk.write aTxt hi).write bTxt []

/-- A chunk buffer that happens to hold zeros. -/
def zeroJunk : Buffer := fun _ => 0

/-- The container of the scenario: `hi`, the records of `a.txt` and `b.txt`, the
trailer 58. -/
def scenarioContainer : List Byte :=
  hi ++ (File.serialize ⟨aTxt, 2, 0⟩ ++ File.serialize ⟨bTxt, 0, 2⟩) ++ encodeS64 58

/-- The container packed from an entry registered with `add(fc::File)` as `a.txt`,
size 5, offset 0, when `a.txt` does not exist. -/
def staleContainer : List Byte := File.serialize ⟨aTxt, 5, 0⟩ ++ encodeS64 29

/-- The name `a`. -/
def aName : Path := [97]

/-- A malformed container of 32 bytes: one record for the path `a` with size 0 that
begins at position 0, and the trailer 24, one less than the 25 bytes of that record, so
that the record ends one byte behind the index boundary (its offset field shares its
last byte with the trailer). -/
def overrunContainer : List Byte :=
  encodeU64 1 ++ aName ++ encodeS64 0 ++ [0, 0, 0, 0, 0, 0, 0] ++ encodeS64 24

/-- A directory holding the malformed container as `out.zp2` and a file `a` = `hi`. -/
def overrunDisk : FS := (emptyDisk.write outZp2 overrunContainer).write aName hi

/-- A directory holding, as `out.zp2`, 8 bytes that read as the trailer `-1`, and a file
`a` = `hi`. -/
def negativeDisk : FS := (emptyDisk.write outZp2 (encodeS64 (-1))).write aName hi

/-- A directory holding `a.txt` = `X` and a `b.txt` whose 29 bytes are those of an
index record for `a.txt` with size 0 and offset 0. -/
def craftedDisk : FS :=
  (emptyDisk.write aTxt [88]).write bTxt (File.serialize ⟨aTxt, 0, 0⟩)

/-! ## The loops, with a record of their passes -/

/-- The copy loop `copyLoop`, recording the chunk size `sz` of every pass, in order. -/
def copyLoopTrace (logAs : Option Path) (size : Int) :
    Nat → Int → CopyState → CopyState × List Nat
  | 0, _, st => (st, [])
  | fuel + 1, fSize, st =>
    if fSize < size then
      let log := logChunk logAs size fSize st.log
      let sz : Int := if size - fSize < BYTES_PER_CHUNK then size - fSize else BYTES_PER_CHUNK
      let r := st.inp.readBuf sz.toNat st.buf
      let t := copyLoopTrace logAs size fuel (fSize + BYTES_PER_CHUNK)
        { inp := r.1, buf := r.2, out := st.out.write (r.2.take sz.toNat), log := log }
      (t.1, sz.toNat :: t.2)
    else (st, [])

/-- The copy loop run from `fSize = 0`, with the chunk sizes of its passes. -/
def copyTrace (logAs : Option Path) (size : Int) (st : CopyState) : CopyState × List Nat :=
  copyLoopTrace logAs size size.toNat 0 st

/-- The index loop `decompressLoop`, recording the record `fl` deserialized in every
pass, in order. -/
def decompressLoopTrace (junk : Buffer) (size : Int) :
    Nat → UnpackState → UnpackState × List File
  | 0, st => (st, [])
  | fuel + 1, st =>
    if st.processed < size then
      let t := decompressLoopTrace junk size fuel (decompressStep junk st)
      (t.1, (File.fresh.deserialize st.inp).1 :: t.2)
    else (st, [])

/-- The start of `decompress`, up to the index loop: the trailer value read into `size`
and the state in which the loop is entered. -/
def decompressEntry (fs : FS) (file : Path) : Int × UnpackState :=
  let o := IStream.openAte fs file
  let in1 := o.1.seekCur (-(WORD : Int))
  let r := in1.readS64 0
  let in2 := r.1.seekEnd (-(WORD : Int) - r.2)
  (r.2, { fs := fs, inp := in2, log := [LogLine.loading file], processed := 0 })

/-- The records deserialized by the passes of the index loop of `decompress`, in
order. -/
def decompressTrace (fs : FS) (junk : Buffer) (file : Path) : List File :=
  (decompressLoopTrace junk (decompressEntry fs file).1 (decompressEntry fs file).1.toNat
    (decompressEntry fs file).2).2

/-- A directory holding three empty files, `a`, `a.txt` and `b.txt`. -/
def emptyFilesDisk : FS := ((emptyDisk.write aName []).write aTxt []).write bTxt []

/-- The container packed from the three empty files of `emptyFilesDisk`: no payload,
records of 25, 29 and 29 bytes, trailer 83. -/
def emptyFilesContainer : List Byte :=
  File.serialize ⟨aName, 0, 0⟩ ++ File.serialize ⟨aTxt, 0, 0⟩ ++ File.serialize ⟨bTxt, 0, 0⟩ ++
    encodeS64 83

/-! ## `main.cpp`: the command line

An element of `argv` is a C string, a list of bytes.  The byte 45 is `-`. -/

/-- The function `std::tolower` in the C locale: an upper-case ASCII letter becomes its
lower-case letter, every other byte stays. -/
def toLower (b : Byte) : Byte :=
  if h : 65 ≤ b.val ∧ b.val ≤ 90 then ⟨b.val + 32, by omega⟩ else b

/-- The struct `cl::Flag`. -/
structure Flag where
  name : Path
  value : Path
  deriving DecidableEq, Repr

/-- The struct `cl::FlagInfo`. -/
structure FlagInfo where
  name : Path
  longName : Path
  useValue : Bool
  deriving DecidableEq, Repr

/-- The entry `{ "dc", "decompress", false }` of `fiInfos`. -/
def dcInfo : FlagInfo :=
  { name := [100, 99], longName := [100, 101, 99, 111, 109, 112, 114, 101, 115, 115],
    useValue := false }

/-- The entry `{ "h", "help", false }` of `fiInfos`. -/
def helpInfo : FlagInfo :=
  { name := [104], longName := [104, 101, 108, 112], useValue := false }

/-- The entry `{ "o", "out", true }` of `fiInfos`. -/
def outInfo : FlagInfo :=
  { name := [111], longName := [111, 117, 116], useValue := true }

/-- The array `fiInfos` of `main`. -/
def fiInfos : List FlagInfo := [dcInfo, helpInfo, outInfo]

/-- The globals `cl::arguments` and `cl::flags`. -/
structure ClState where
  arguments : List Path
  flags : List Flag
  deriving DecidableEq, Repr

/-- The loop `for (int j = 0; j < fiSize; j++)` of `ProcessArguments` up to its
`break`: the first entry whose name or long name is `arg`. -/
def findInfo (infos : List FlagInfo) (arg : Path) : Option FlagInfo :=
  infos.find? (fun fi => decide (arg = fi.name ∨ arg = fi.longName))

/-- The function `cl::ProcessArguments` on the elements `argv[1..]` still to process
and the globals.  An element that starts with `-` loses two dashes when its second
character is `-`, one otherwise, and is lower-cased; a known flag is pushed, with the
next element as value when the flag takes one, the element exists and does not start
with `-`; an unknown one is skipped.  Any other element is pushed to `arguments`. -/
def ProcessArguments (infos : List FlagInfo) : List Path → ClState → ClState
  | [], st => st
  | arg :: rest, st =>
    -- if (arg.front() == '-')
    if arg.head? = some 45 then
      -- if (arg[1] == '-') arg = arg.substr(2); else arg = arg.substr(1); TOLOWER(arg);
      let name := (if arg.getD 1 0 = 45 then arg.drop 2 else arg.drop 1).map toLower
      match findInfo infos name with
      | none => ProcessArguments infos rest st
      | some fi =>
        if fi.useValue then
          match rest with
          | next :: rest2 =>
            -- if (argv[i + 1][0] != '-') flag.value = argv[++i];
            if next.head? ≠ some 45 then
              ProcessArguments infos rest2 { st with flags := st.flags ++ [⟨name, next⟩] }
            else ProcessArguments infos (next :: rest2) { st with flags := st.flags ++ [⟨name, []⟩] }
          | [] => { st with flags := st.flags ++ [⟨name, []⟩] }
        else ProcessArguments infos rest { st with flags := st.flags ++ [⟨name, []⟩] }
    else ProcessArguments infos rest { st with arguments := st.arguments ++ [arg] }

/-- The overload `cl::hasFlag(const FlagInfo&)` on the global `flags`. -/
def hasFlag (flags : List Flag) (fi : FlagInfo) : Bool :=
  flags.any (fun f => decide (f.name = fi.name ∨ f.name = fi.longName))

/-- The destination `main` passes to `compress`: `out.zp2` without a destination flag;
with one, the value of the first flag named `o`.  When there is a destination flag but
none named `o`, `std::find_if` returns `end()` and `main` indexes it: no result. -/
def packDestination (flags : List Flag) : Option Path :=
  if hasFlag flags outInfo then
    match flags.find? (fun f => decide (f.name = [111])) with
    | some f => some f.value
    | none => none
  else some outZp2

/-- How `main` ends: it returns a code, having printed the usage text with `DisplayHelp`
or not, and leaving a filesystem; or an exception leaves it and the program ends in
`std::terminate`, without an exit code of `main`; or its behaviour is undefined. -/
inductive Outcome where
  | returned (code : Nat) (usage : Bool) (fs : FS)
  | aborted (fs : FS)
  | undefined

/-- The exit code, if `main` returns. -/
def Outcome.code : Outcome → Option Nat
  | Outcome.returned code _ _ => some code
  | Outcome.aborted _ => none
  | Outcome.undefined => none

/-- Whether `main` has printed the usage text. -/
def Outcome.usage : Outcome → Bool
  | Outcome.returned _ usage _ => usage
  | Outcome.aborted _ => false
  | Outcome.undefined => false

/-- Whether the program ends in `std::terminate`. -/
def Outcome.aborts : Outcome → Bool
  | Outcome.returned _ _ _ => false
  | Outcome.aborted _ => true
  | Outcome.undefined => false

/-- The function `main` on `argv` (with `argv[0]` the program name). -/
def main (max_size : Nat) (fs : FS) (junk : Buffer) (argv : List Path) : Outcome :=
  let st := ProcessArguments fiInfos (argv.drop 1) { arguments := [], flags := [] }
  if (decide (st.arguments.length < 2) && !hasFlag st.flags dcInfo) ||
      (decide (st.arguments.length < 1) && hasFlag st.flags dcInfo) ||
      hasFlag st.flags helpInfo then
    -- DisplayHelp(); return 1;
    Outcome.returned 1 true fs
  else if hasFlag st.flags dcInfo then
    -- fc.decompress(cl::arguments[0]); return 0;
    match decompressFull max_size fs junk (st.arguments.headD []) with
    | Exit.done r => Outcome.returned 0 false r.1
    | Exit.thrown r => Outcome.aborted r.1
    | Exit.undefined => Outcome.undefined
  else
    -- fc.add(file) for every argument, then fc.compress(out) or fc.compress("out.zp2")
    match packDestination st.flags with
    | some out =>
      Outcome.returned 0 false (compress fs junk (st.arguments.foldl addString []) out).1
    | none => Outcome.undefined

/-! ## The classification of the command line, in words -/

/-- The element starts with `-`. -/
def startsWithDash (a : Path) : Bool := decide (a.head? = some 45)

/-- The upper-case ASCII letters `A` to `Z`, each with its lower-case letter. -/
def letterCases : List (Byte × Byte) :=
  [(65, 97), (66, 98), (67, 99), (68, 100), (69, 101), (70, 102), (71, 103), (72, 104),
    (73, 105), (74, 106), (75, 107), (76, 108), (77, 109), (78, 110), (79, 111), (80, 112),
    (81, 113), (82, 114), (83, 115), (84, 116), (85, 117), (86, 118), (87, 119), (88, 120),
    (89, 121), (90, 122)]

/-- A byte lower-cased: an upper-case ASCII letter is replaced by its lower-case letter,
every other byte is kept. -/
def lowerCased (b : Byte) : Byte := (letterCases.lookup b).getD b

/-- The name of a dash-prefixed element: two leading dashes stripped if it has two, one
otherwise, then lower-cased. -/
def flagName (a : Path) : Path :=
  (if a.take 2 = [45, 45] then a.drop 2 else a.drop 1).map lowerCased

/-- The names of the unpack flag: `dc` and `decompress`. -/
def unpackNames : List Path := [[100, 99], [100, 101, 99, 111, 109, 112, 114, 101, 115, 115]]

/-- The names of the help flag: `h` and `help`. -/
def helpNames : List Path := [[104], [104, 101, 108, 112]]

/-- The names of the destination flag: `o` and `out`. -/
def outNames : List Path := [[111], [111, 117, 116]]

/-- The element is a recognised `-o` / `--out`: it starts with `-` and its name is `o`
or `out`. -/
def isOutFlag (a : Path) : Bool :=
  startsWithDash a && decide (flagName a ∈ outNames)

/-- The element is a recognised flag: it starts with `-` and its name is one of `dc`,
`decompress`, `h`, `help`, `o`, `out`. -/
def isKnownFlag (a : Path) : Bool :=
  startsWithDash a && decide (flagName a ∈ unpackNames ++ helpNames ++ outNames)

/-- The elements that do not start with `-` and do not immediately follow a recognised
`-o` / `--out`, in order; `prevOut` tells whether the element before the first one is a
recognised `-o` / `--out`. -/
def positionalsFrom (prevOut : Bool) (args : List Path) : List Path :=
  ((args.zip (prevOut :: args.map isOutFlag)).filter
    (fun ap => !startsWithDash ap.1 && !ap.2)).map Prod.fst

/-- The positional arguments of `argv[1..]`. -/
def expectedArguments (args : List Path) : List Path := positionalsFrom false args

/-- The value a recognised `-o` / `--out` takes from the elements behind it: the next
element when it exists and does not start with `-`, the empty string otherwise. -/
def valueBehind : List Path → Path
  | next :: _ => if startsWithDash next then [] else next
  | [] => []

/-- The flags of `argv[1..]`: one for every recognised flag, in order, named by its
lower-cased name; a recognised `-o` / `--out` has the value it takes from the elements
behind it, every other flag has the empty value. -/
def expectedFlags : List Path → List Flag
  | [] => []
  | a :: rest =>
    if isKnownFlag a then
      { name := flagName a, value := if isOutFlag a then valueBehind rest else [] } ::
        expectedFlags rest
    else expectedFlags rest

/-- The short name of the destination flag: `o`. -/
def shortOutNames : List Path := [[111]]

/-- A flag with one of the names `names` is given: some element of `argv[1..]` starts
with `-` and has one of them as its name. -/
def flagGiven (names : List Path) (args : List Path) : Bool :=
  args.any (fun a => startsWithDash a && decide (flagName a ∈ names))

/-- The globals after the call of `ProcessArguments` in `main`. -/
def parsed (argv : List Path) : ClState :=
  ProcessArguments fiInfos (argv.drop 1) { arguments := [], flags := [] }

/-- The program name `fc`. -/
def progName : Path := [102, 99]

/-- The name `d`. -/
def dName : Path := [100]

/-- The element `-o`. -/
def dashO : Path := [45, 111]

/-- The element `--out`. -/
def dashDashOut : Path := [45, 45, 111, 117, 116]

/-- The element `-dc`. -/
def dashDc : Path := [45, 100, 99]

/-- The element `-x`, an unknown flag. -/
def dashX : Path := [45, 120]

/-- The element `--OUT`. -/
def dashDashOutUpper : Path := [45, 45, 79, 85, 84]

/-- The element `-O`. -/
def dashOUpper : Path := [45, 79]

/-- The element `-DC`. -/
def dashDcUpper : Path := [45, 68, 67]

/-- The element `--Help`. -/
def dashDashHelpMixed : Path := [45, 45, 72, 101, 108, 112]

/-- The element `-X`, an unknown flag. -/
def dashXUpper : Path := [45, 88]

/-- A bound of `resize` for the examples: `2 ^ 63 - 1`, the largest below `2 ^ 63`. -/
def maxString : Nat := 2 ^ 63 - 1

/-- A corrupt container of 32 bytes: eight bytes `FF`, sixteen bytes `00` and the trailer
24.  Its index is one record of 24 bytes whose length field reads `2 ^ 64 - 1`. -/
def corruptContainer : List Byte :=
  List.replicate 8 255 ++ List.replicate 16 0 ++ encodeS64 24

/-- A directory holding `corruptContainer` as `out.zp2`. -/
def corruptDisk : FS := emptyDisk.write outZp2 corruptContainer

/-- A directory holding, as `out.zp2`, 8 bytes that read as the trailer 100, and a file
`a` = `hi`. -/
def longTrailerDisk : FS := (emptyDisk.write outZp2 (encodeS64 100)).write aName hi

/-- A directory holding, as `out.zp2`, 8 bytes that read as the trailer `2 ^ 63 - 1`. -/
def hugeTrailerDisk : FS := emptyDisk.write outZp2 (encodeS64 (2 ^ 63 - 1))

/-! # Theorems -/

/-! ## The codec -/

theorem leBytes_length (k n : Nat) : (leBytes k n).length = k := by
  induction k generalizing n with
  | zero => rfl
  | succ k ih => simp [leBytes, ih]

theorem leValue_leBytes (k n : Nat) : leValue (leBytes k n) = n % 256 ^ k := by
  induction k generalizing n with
  | zero => simp [leBytes, leValue, Nat.mod_one]
  | succ k ih =>
    simp only [leBytes, leValue, ih]
    rw [pow_succ', Nat.mod_mul]

theorem encodeU64_length (n : Nat) : (encodeU64 n).length = 8 := leBytes_length 8 _

theorem encodeS64_length (x : Int) : (encodeS64 x).length = 8 := leBytes_length 8 _

theorem decodeU64_encodeU64 (n : Nat) (h : n < 2 ^ 64) : decodeU64 (encodeU64 n) = n := by
  unfold decodeU64 encodeU64
  rw [leValue_leBytes]
  norm_num at h ⊢
  omega

theorem decodeS64_encodeS64 (x : Int) (h1 : -2 ^ 63 ≤ x) (h2 : x < 2 ^ 63) :
    decodeS64 (encodeS64 x) = x := by
  unfold decodeS64 encodeS64
  rw [leValue_leBytes]
  norm_num at h1 h2 ⊢
  split <;> omega

theorem serialize_length (f : File) : f.serialize.length = f.path.length + 24 := by
  simp [File.serialize, encodeU64_length, encodeS64_length]
  omega

/-! ## Reading from a stream -/

theorem get_exact (d pre bs post : List Byte) (p n : Nat)
    (hd : d = pre ++ bs ++ post) (hp : p = pre.length) (hn : n = bs.length) :
    IStream.get ⟨d, p, false⟩ n = (⟨d, p + n, false⟩, bs) := by
  subst hd hp hn
  simp [IStream.get]

theorem read_exact (d pre bs post target : List Byte) (p n : Nat)
    (hd : d = pre ++ bs ++ post) (hp : p = pre.length) (hn : n = bs.length)
    (ht : target.length = n) :
    IStream.read ⟨d, p, false⟩ n target = (⟨d, p + n, false⟩, bs) := by
  simp only [IStream.read, get_exact d pre bs post p n hd hp hn]
  rw [List.drop_of_length_le (by omega)]
  simp

/-- Deserializing into a fresh object at the start of a serialized record gives the
record back and leaves the stream just behind it. -/
theorem deserialize_serialize_at (pre t : List Byte) (f : File)
    (hp : f.path.length < 2 ^ 64)
    (hs1 : -2 ^ 63 ≤ f.size) (hs2 : f.size < 2 ^ 63)
    (ho1 : -2 ^ 63 ≤ f.offset) (ho2 : f.offset < 2 ^ 63) :
    File.fresh.deserialize ⟨pre ++ f.serialize ++ t, pre.length, false⟩ =
      (f, ⟨pre ++ f.serialize ++ t, pre.length + f.path.length + 24, false⟩) := by
  obtain ⟨path, size, offset⟩ := f
  simp only at hp hs1 hs2 ho1 ho2
  have h1 := read_exact (pre ++ File.serialize ⟨path, size, offset⟩ ++ t) pre
    (encodeU64 path.length) (path ++ encodeS64 size ++ encodeS64 offset ++ t)
    (encodeU64 0) pre.length 8 (by simp [File.serialize]) rfl
    (encodeU64_length _).symm (encodeU64_length _)
  have h2 := read_exact (pre ++ File.serialize ⟨path, size, offset⟩ ++ t)
    (pre ++ encodeU64 path.length) path (encodeS64 size ++ encodeS64 offset ++ t)
    (List.replicate path.length (0 : Byte)) (pre.length + 8) path.length
    (by simp [File.serialize]) (by simp [encodeU64_length]) rfl (by simp)
  have h3 := read_exact (pre ++ File.serialize ⟨path, size, offset⟩ ++ t)
    (pre ++ encodeU64 path.length ++ path) (encodeS64 size) (encodeS64 offset ++ t)
    (encodeS64 0) (pre.length + 8 + path.length) 8
    (by simp [File.serialize]) (by simp [encodeU64_length]; omega) (encodeS64_length _).symm
    (encodeS64_length _)
  have h4 := read_exact (pre ++ File.serialize ⟨path, size, offset⟩ ++ t)
    (pre ++ encodeU64 path.length ++ path ++ encodeS64 size) (encodeS64 offset) t
    (encodeS64 0) (pre.length + 8 + path.length + 8) 8
    (by simp [File.serialize]) (by simp [encodeU64_length, encodeS64_length]; omega)
    (encodeS64_length _).symm (encodeS64_length _)
  have hl : decodeU64 (encodeU64 path.length) = path.length := decodeU64_encodeU64 _ hp
  simp only [File.deserialize, File.fresh, IStream.readU64, IStream.readS64, WORD, h1, hl,
    List.length_nil, Nat.sub_zero]
  by_cases hz : path.length = 0
  · have : path = [] := List.length_eq_zero.mp hz
    subst this
    simp only [List.length_nil, lt_self_iff_false, if_false, Nat.add_zero] at h2 h3 h4 ⊢
    simp only [List.replicate_zero] at h2
    simp only [h2, h3, h4, decodeS64_encodeS64 _ hs1 hs2, decodeS64_encodeS64 _ ho1 ho2]
  · have hpos : 0 < path.length := Nat.pos_of_ne_zero hz
    simp only [hpos, if_true, List.nil_append, h2, h3, h4,
      decodeS64_encodeS64 _ hs1 hs2, decodeS64_encodeS64 _ ho1 ho2]
    simp only [Prod.mk.injEq, IStream.mk.injEq, true_and, and_true]
    omega

/-! ## The chunked copy -/

theorem write_nil (o : OStream) : o.write [] = o := by
  cases o with
  | mk name ok data => cases ok <;> simp [OStream.write]

theorem write_write (o : OStream) (a b : List Byte) : (o.write a).write b = o.write (a ++ b) := by
  cases o with
  | mk name ok data => cases ok <;> simp [OStream.write]

theorem write_ok (o : OStream) (a : List Byte) : (o.write a).ok = o.ok := by
  cases o with
  | mk name ok data => cases ok <;> simp [OStream.write]

theorem take_fill (buf : Buffer) (got : List Byte) :
    Buffer.take (Buffer.fill buf got) got.length = got := by
  apply List.ext_getElem
  · simp [Buffer.take]
  · intro i h1 h2
    simp [Buffer.take, Buffer.fill, h2]

theorem get_avail (d : List Byte) (p m : Nat) (h : p + m ≤ d.length) :
    IStream.get ⟨d, p, false⟩ m = (⟨d, p + m, false⟩, (d.drop p).take m) := by
  have hl : ((d.drop p).take m).length = m := by
    simp only [List.length_take, List.length_drop]
    omega
  simp only [IStream.get, hl]
  simp

theorem copyLoop_exit (logAs : Option Path) (size fSize : Int) (fuel : Nat) (st : CopyState)
    (h : size ≤ fSize) : copyLoop logAs size fuel fSize st = st := by
  cases fuel with
  | zero => rfl
  | succ fuel =>
    have : ¬ fSize < size := not_lt.mpr h
    simp [copyLoop, this]

/-- When the source holds `n` bytes from `base` on, the loop entered after `k` copied
bytes writes the remaining `n - k` of them and leaves the source behind the last. -/
theorem copyLoop_full (logAs : Option Path) (d : List Byte) (base n : Nat)
    (hfit : base + n ≤ d.length) :
    ∀ (fuel k : Nat) (buf : Buffer) (out : OStream) (log : List LogLine),
      k ≤ n → n - k ≤ fuel →
      (copyLoop logAs (n : Int) fuel (k : Int) ⟨⟨d, base + k, false⟩, buf, out, log⟩).out =
          out.write ((d.drop (base + k)).take (n - k)) ∧
      (copyLoop logAs (n : Int) fuel (k : Int) ⟨⟨d, base + k, false⟩, buf, out, log⟩).inp =
          ⟨d, base + n, false⟩ := by
  intro fuel
  induction fuel with
  | zero =>
    intro k buf out log hk hf
    have hkn : k = n := by omega
    subst hkn
    simp [copyLoop, write_nil]
  | succ fuel ih =>
    intro k buf out log hk hf
    by_cases hlt : (k : Int) < (n : Int)
    · have hkn : k < n := by exact_mod_cast hlt
      by_cases hlast : (n : Int) - (k : Int) < (BYTES_PER_CHUNK : Int)
      · -- the last chunk: the remainder
        have hsz : ((n : Int) - (k : Int)).toNat = n - k := by omega
        have hg := get_avail d (base + k) (n - k) (by omega)
        have hx : (n : Int) ≤ (k : Int) + (BYTES_PER_CHUNK : Int) := by omega
        simp only [copyLoop, hlt, if_true, hlast, hsz, IStream.readBuf, hg]
        rw [copyLoop_exit _ _ _ _ _ hx]
        have hl : ((d.drop (base + k)).take (n - k)).length = n - k := by
          simp only [List.length_take, List.length_drop]
          omega
        have ht := take_fill buf ((d.drop (base + k)).take (n - k))
        rw [hl] at ht
        simp only [ht, true_and, IStream.mk.injEq, and_true]
        omega
      · -- a full chunk
        have hC : (BYTES_PER_CHUNK : Int).toNat = BYTES_PER_CHUNK := Int.toNat_natCast _
        have hle : BYTES_PER_CHUNK ≤ n - k := by omega
        have hg := get_avail d (base + k) BYTES_PER_CHUNK (by omega)
        have hl : ((d.drop (base + k)).take BYTES_PER_CHUNK).length = BYTES_PER_CHUNK := by
          simp only [List.length_take, List.length_drop]
          omega
        have ht := take_fill buf ((d.drop (base + k)).take BYTES_PER_CHUNK)
        rw [hl] at ht
        have hcast : (k : Int) + (BYTES_PER_CHUNK : Int) = ((k + BYTES_PER_CHUNK : Nat) : Int) := by
          push_cast
          rfl
        have hpos : base + k + BYTES_PER_CHUNK = base + (k + BYTES_PER_CHUNK) := by omega
        have hCpos : 0 < BYTES_PER_CHUNK := by decide
        simp only [copyLoop, hlt, if_true, hlast, if_false, hC, IStream.readBuf, hg, ht, hcast,
          hpos]
        have := ih (k + BYTES_PER_CHUNK)
          (Buffer.fill buf ((d.drop (base + k)).take BYTES_PER_CHUNK))
          (out.write ((d.drop (base + k)).take BYTES_PER_CHUNK))
          (logChunk logAs n k log)
          (by omega) (by omega)
        refine ⟨?_, this.2⟩
        have hjoin : (d.drop (base + k)).take BYTES_PER_CHUNK ++
            (d.drop (base + (k + BYTES_PER_CHUNK))).take (n - (k + BYTES_PER_CHUNK)) =
            (d.drop (base + k)).take (n - k) := by
          have hsplit : n - k = BYTES_PER_CHUNK + (n - (k + BYTES_PER_CHUNK)) := by omega
          rw [hsplit, List.take_add, List.drop_drop, hpos]
        rw [this.1, write_write, hjoin]
    · have hkn : k = n := by
        have : (n : Int) ≤ (k : Int) := not_lt.mp hlt
        omega
      subst hkn
      simp [copyLoop, write_nil]

/-- More passes than `size - fSize` are never used: with any two bounds of at least
that many passes the copy loop gives the same result, having left by its condition. -/
theorem copyLoop_fuel (logAs : Option Path) (size : Int) :
    ∀ (fuel1 fuel2 : Nat) (fSize : Int) (st : CopyState),
      (size - fSize).toNat ≤ fuel1 → (size - fSize).toNat ≤ fuel2 →
      copyLoop logAs size fuel1 fSize st = copyLoop logAs size fuel2 fSize st := by
  intro fuel1
  induction fuel1 with
  | zero =>
    intro fuel2 fSize st h1 _
    have hle : size ≤ fSize := by omega
    rw [copyLoop_exit _ _ _ _ _ hle, copyLoop_exit _ _ _ _ _ hle]
  | succ fuel1 ih =>
    intro fuel2 fSize st h1 h2
    by_cases hlt : fSize < size
    · obtain ⟨k, rfl⟩ : ∃ k, fuel2 = k + 1 := ⟨fuel2 - 1, by omega⟩
      have hC : (BYTES_PER_CHUNK : Int) = 1048576 := rfl
      simp only [copyLoop, hlt, if_true]
      exact ih k _ _ (by omega) (by omega)
    · rw [copyLoop_exit _ _ _ _ _ (not_lt.mp hlt), copyLoop_exit _ _ _ _ _ (not_lt.mp hlt)]

/-! ## The container written by `compress` -/

theorem copy_whole (c : List Byte) (junk : Buffer) (out : OStream) :
    (copy none (c.length : Int) ⟨⟨c, 0, false⟩, junk, out, []⟩).out = out.write c := by
  have h := (copyLoop_full none c 0 c.length (by simp) c.length 0 junk out []
    (Nat.zero_le _) (by simp)).1
  simp only [Nat.add_zero, Nat.cast_zero, List.drop_zero, Nat.sub_zero, List.take_length] at h
  simpa [copy] using h

theorem compressEntry_missing (view : FS) (junk : Buffer) (f : File) (out : OStream)
    (h : view.lookup f.path = none) : compressEntry view junk f out = (f, out) := by
  simp [compressEntry, IStream.openAte, h]

theorem compressEntry_open (view : FS) (junk : Buffer) (f : File) (out : OStream)
    (c : List Byte) (h : view.lookup f.path = some c) (hok : out.ok = true) :
    compressEntry view junk f out =
      ({ f with size := c.length, offset := out.data.length }, out.write c) := by
  have hseek : IStream.seekBeg ⟨c, c.length, false⟩ 0 = ⟨c, 0, false⟩ := by
    simp [IStream.seekBeg, IStream.seekTo]
  simp only [compressEntry, IStream.openAte, h, Bool.not_true, Bool.false_eq_true, if_false,
    IStream.tellg, OStream.tellp, hok, if_true, hseek, copy_whole]

theorem compressData_eq (view : FS) (junk : Buffer) : ∀ (files : List File) (out : OStream),
    out.ok = true →
    compressData view junk files out =
      (placed view out.data.length files, out.write (dataRegion view files)) := by
  intro files
  induction files with
  | nil =>
    intro out _
    simp [compressData, placed, dataRegion, write_nil]
  | cons f rest ih =>
    intro out hok
    cases h : view.lookup f.path with
    | none =>
      simp only [compressData, compressEntry_missing view junk f out h, ih out hok, placed, h,
        dataRegion, payload, List.map_cons, List.flatten_cons, Option.getD_none,
        List.nil_append]
    | some c =>
      have hok2 : (out.write c).ok = true := by rw [write_ok]; exact hok
      have hlen : (out.write c).data.length = out.data.length + c.length := by
        simp [OStream.write, hok]
      simp only [compressData, compressEntry_open view junk f out c h hok, ih _ hok2, placed, h,
        dataRegion, payload, List.map_cons, List.flatten_cons, Option.getD_some, hlen,
        write_write]

theorem serializeAll_eq : ∀ (files : List File) (out : OStream),
    serializeAll files out = out.write (indexRegion files) := by
  intro files
  induction files with
  | nil => intro out; simp [serializeAll, indexRegion, write_nil]
  | cons f rest ih =>
    intro out
    have := ih (out.write f.serialize)
    simp only [serializeAll] at this
    simp only [serializeAll, List.foldl_cons, this, indexRegion, List.map_cons,
      List.flatten_cons, write_write]

theorem indexRegion_length (files : List File) :
    ((indexRegion files).length : Int) = (files.map File.recordLength).sum := by
  induction files with
  | nil => simp [indexRegion]
  | cons f rest ih =>
    simp only [indexRegion, List.map_cons, List.flatten_cons, List.length_append,
      List.sum_cons, serialize_length, File.recordLength, WORD] at ih ⊢
    push_cast
    rw [ih]
    ring

theorem accumulate_from : ∀ (files : List File) (a : Int),
    files.foldl (fun val f => val + (f.path.length : Int) + WORD + WORD + WORD) a =
      a + (files.map File.recordLength).sum := by
  intro files
  induction files with
  | nil => intro a; simp
  | cons f rest ih =>
    intro a
    simp only [List.foldl_cons, ih, List.map_cons, List.sum_cons, File.recordLength]
    ring

theorem accumulateIndex_eq (files : List File) :
    accumulateIndex files = ((indexRegion files).length : Int) := by
  rw [indexRegion_length, accumulateIndex, accumulate_from, zero_add]

/-- A source whose name is not the name of the destination is read by `compress` as it
is in the filesystem before the call. -/
theorem packView_lookup (fs : FS) (outFile p : Path) (h : cstr p ≠ cstr outFile) :
    (packView fs outFile).lookup p = fs.lookup p := by
  unfold packView OStream.openTrunc FS.lookup
  by_cases hout : cstr outFile = []
  · simp [hout]
  · simp [hout, FS.write, h]

/-- The container `compress` leaves at the destination, and the entries after the call. -/
theorem compress_eq (fs : FS) (junk : Buffer) (files : List File) (outFile : Path)
    (hout : cstr outFile ≠ []) :
    compress fs junk files outFile =
      ((packView fs outFile).write (cstr outFile)
          (dataRegion (packView fs outFile) files ++
            indexRegion (placed (packView fs outFile) 0 files) ++
            encodeS64 ((indexRegion (placed (packView fs outFile) 0 files)).length : Int)),
        placed (packView fs outFile) 0 files) := by
  have hopen : OStream.openTrunc fs outFile =
      (packView fs outFile, { name := cstr outFile, ok := true, data := [] }) := by
    simp [packView, OStream.openTrunc, hout]
  have hdata := compressData_eq (packView fs outFile) junk files
    { name := cstr outFile, ok := true, data := [] } rfl
  simp only [compress, hopen, hdata, serializeAll_eq, accumulateIndex_eq,
    write_write, List.length_nil]
  simp [OStream.write, OStream.close]

/-! ## Registration -/

theorem leBytes_eq_range : ∀ (k n : Nat),
    leBytes k n =
      (List.range k).map (fun i => (⟨n / 256 ^ i % 256, Nat.mod_lt _ (by decide)⟩ : Byte)) := by
  intro k
  induction k with
  | zero => intro n; rfl
  | succ k ih =>
    intro n
    rw [List.range_succ_eq_map, leBytes, ih]
    simp only [List.map_cons, List.map_map, pow_zero, Nat.div_one, List.cons.injEq, true_and]
    apply List.map_congr_left
    intro i _
    simp only [Function.comp, Fin.mk.injEq]
    rw [Nat.div_div_eq_div_mul, pow_succ']

theorem encodeU64_eq (n : Nat) (h : n < 2 ^ 64) : encodeU64 n = littleEndian8 n := by
  rw [encodeU64, Nat.mod_eq_of_lt h, leBytes_eq_range]
  rfl

theorem encodeS64_eq (x : Int) (h1 : -2 ^ 63 ≤ x) (h2 : x < 2 ^ 63) :
    encodeS64 x = littleEndian8 (twosComplement64 x) := by
  have : (x % 2 ^ 64).toNat = twosComplement64 x := by
    unfold twosComplement64
    norm_num at h1 h2 ⊢
    split <;> omega
  rw [encodeS64, this, leBytes_eq_range]
  rfl

/-! ## Claims about registration and the codec -/

/-- C7 (codec round trip).  For every entry `e` whose fields fit their C++ types and
every byte sequence `t`, `File::deserialize` on a freshly constructed `File`, with the
cursor at the start of `serialize(e) ++ t`, yields `e` and advances the cursor by
`|e.path| + 24` bytes, to the first byte of `t`, without setting `failbit`. -/
theorem deserialize_serialize_roundtrip (e : File) (t : List Byte)
    (hp : e.path.length < 2 ^ 64)
    (hs : -2 ^ 63 ≤ e.size ∧ e.size < 2 ^ 63)
    (ho : -2 ^ 63 ≤ e.offset ∧ e.offset < 2 ^ 63) :
    File.fresh.deserialize ⟨e.serialize ++ t, 0, false⟩ =
        (e, ⟨e.serialize ++ t, e.path.length + 24, false⟩) ∧
    (e.serialize ++ t).drop (e.path.length + 24) = t := by
  constructor
  · have h := deserialize_serialize_at [] t e hp hs.1 hs.2 ho.1 ho.2
    simpa using h
  · rw [← serialize_length e, List.drop_left]

/-- The round trip of the record with the empty path, size `-1` and offset `5`. -/
theorem deserialize_serialize_roundtrip_witness :
    File.fresh.deserialize ⟨File.serialize ⟨[], -1, 5⟩ ++ [7], 0, false⟩ =
        (⟨[], -1, 5⟩, ⟨File.serialize ⟨[], -1, 5⟩ ++ [7], 24, false⟩) ∧
    (File.serialize ⟨[], -1, 5⟩ ++ [7]).drop 24 = [7] :=
  deserialize_serialize_roundtrip ⟨[], -1, 5⟩ [7] (by decide) (by decide) (by decide)

/-- C8 (record layout).  For every entry `e` whose fields fit their C++ types,
`File::serialize` emits exactly `|e.path| + 24` bytes: the 8-byte little-endian
unsigned value `|e.path|`, the raw bytes of the path, the 8-byte two's-complement
encoding of `e.size`, then that of `e.offset`; and entries with equal path, size and
offset are serialized alike. -/
theorem serialize_layout (e : File)
    (hp : e.path.length < 2 ^ 64)
    (hs : -2 ^ 63 ≤ e.size ∧ e.size < 2 ^ 63)
    (ho : -2 ^ 63 ≤ e.offset ∧ e.offset < 2 ^ 63) :
    e.serialize = littleEndian8 e.path.length ++ e.path ++
        littleEndian8 (twosComplement64 e.size) ++ littleEndian8 (twosComplement64 e.offset) ∧
    e.serialize.length = e.path.length + 24 ∧
    leValue (littleEndian8 e.path.length) = e.path.length ∧
    (∀ g : File, g.path = e.path → g.size = e.size → g.offset = e.offset →
      g.serialize = e.serialize) := by
  refine ⟨?_, serialize_length e, ?_, ?_⟩
  · rw [File.serialize, encodeU64_eq _ hp, encodeS64_eq _ hs.1 hs.2, encodeS64_eq _ ho.1 ho.2]
  · rw [← encodeU64_eq _ hp]
    exact decodeU64_encodeU64 _ hp
  · intro g h1 h2 h3
    simp only [File.serialize, h1, h2, h3]

/-- The record of `a.txt` with size `2` and offset `-1`, byte by byte. -/
theorem serialize_layout_witness :
    File.serialize ⟨aTxt, 2, -1⟩ =
      [5, 0, 0, 0, 0, 0, 0, 0, 97, 46, 116, 120, 116, 2, 0, 0, 0, 0, 0, 0, 0,
        255, 255, 255, 255, 255, 255, 255, 255] ∧
    (File.serialize ⟨aTxt, 2, -1⟩).length = 5 + 24 :=
  ⟨(serialize_layout ⟨aTxt, 2, -1⟩ (by decide) (by decide) (by decide)).1.trans (by decide),
    (serialize_layout ⟨aTxt, 2, -1⟩ (by decide) (by decide) (by decide)).2.1⟩

/-! ## Claims about the container -/

theorem trailerOf_append (body t : List Byte) (ht : t.length = 8) :
    trailerOf (body ++ t) = decodeS64 t := by
  have : (body ++ t).length - WORD = body.length := by
    simp [WORD, ht]
  rw [trailerOf, this, List.drop_left]

theorem mem_indexRegion_length : ∀ (es : List File) (e : File), e ∈ es →
    e.path.length + 24 ≤ (indexRegion es).length := by
  intro es
  induction es with
  | nil => intro e h; simp at h
  | cons f rest ih =>
    intro e h
    simp only [indexRegion, List.map_cons, List.flatten_cons, List.length_append,
      serialize_length]
    rcases List.mem_cons.mp h with rfl | h
    · omega
    · have := ih e h
      simp only [indexRegion] at this
      omega

theorem length_le_indexRegion : ∀ (es : List File), es.length ≤ (indexRegion es).length := by
  intro es
  induction es with
  | nil => simp
  | cons f rest ih =>
    simp only [indexRegion, List.map_cons, List.flatten_cons, List.length_append,
      serialize_length, List.length_cons] at ih ⊢
    omega

/-- Reading records back to back from the start of an index region returns the entries
that were serialized and consumes the length of the region. -/
theorem readRecords_index (post : List Byte) (trailer : Int) :
    ∀ (es : List File) (done : List Byte) (fuel : Nat) (consumed : Int),
      (∀ e ∈ es, e.path.length < 2 ^ 64 ∧ fitsS64 e.size ∧ fitsS64 e.offset) →
      es.length ≤ fuel → trailer = consumed + ((indexRegion es).length : Int) →
      readRecords trailer fuel consumed ⟨done ++ indexRegion es ++ post, done.length, false⟩ =
        (es, trailer) := by
  intro es
  induction es with
  | nil =>
    intro done fuel consumed _ _ ht
    have hc : trailer = consumed := by simpa [indexRegion] using ht
    subst hc
    cases fuel <;> simp [readRecords]
  | cons e rest ih =>
    intro done fuel consumed hfit hfuel ht
    obtain ⟨fuel, rfl⟩ : ∃ k, fuel = k + 1 := ⟨fuel - 1, by simp at hfuel; omega⟩
    have he := hfit e (List.mem_cons_self _ _)
    have hlen : ((indexRegion (e :: rest)).length : Int) =
        e.recordLength + ((indexRegion rest).length : Int) := by
      simp only [indexRegion, List.map_cons, List.flatten_cons, List.length_append,
        serialize_length, File.recordLength, WORD]
      push_cast
      ring
    have hpos : 24 ≤ e.recordLength := by
      simp only [File.recordLength, WORD]
      push_cast
      omega
    have hguard : consumed < trailer := by
      rw [ht, hlen]
      have : (0 : Int) ≤ ((indexRegion rest).length : Int) := Int.natCast_nonneg _
      omega
    have hdata : done ++ indexRegion (e :: rest) ++ post =
        done ++ e.serialize ++ (indexRegion rest ++ post) := by
      simp [indexRegion]
    have hdata2 : done ++ e.serialize ++ (indexRegion rest ++ post) =
        (done ++ e.serialize) ++ indexRegion rest ++ post := by
      simp
    have hd := deserialize_serialize_at done (indexRegion rest ++ post) e he.1
      he.2.1.1 he.2.1.2 he.2.2.1 he.2.2.2
    have hnext : done.length + e.path.length + 24 = (done ++ e.serialize).length := by
      simp [serialize_length]
      omega
    rw [hdata]
    simp only [readRecords, hguard, if_true, hd]
    rw [hdata2, hnext]
    rw [ih (done ++ e.serialize) fuel (consumed + e.recordLength)
      (fun x hx => hfit x (List.mem_cons_of_mem _ hx))
      (by simpa using hfuel) (by rw [ht, hlen]; ring)]

theorem placed_fits (view : FS) : ∀ (files : List File) (pos : Nat),
    (∀ f ∈ files, view.lookup f.path = none → fitsS64 f.size ∧ fitsS64 f.offset) →
    pos + (dataRegion view files).length < 2 ^ 63 →
    ∀ e ∈ placed view pos files, fitsS64 e.size ∧ fitsS64 e.offset := by
  intro files
  induction files with
  | nil => intro pos _ _ e he; simp [placed] at he
  | cons f rest ih =>
    intro pos hstale hlen e he
    have hrest : ∀ g ∈ rest, view.lookup g.path = none → fitsS64 g.size ∧ fitsS64 g.offset :=
      fun g hg => hstale g (List.mem_cons_of_mem _ hg)
    cases h : view.lookup f.path with
    | none =>
      simp only [placed, h, List.mem_cons] at he
      have hl : pos + (dataRegion view rest).length < 2 ^ 63 := by
        simpa [dataRegion, payload, h] using hlen
      rcases he with rfl | he
      · exact hstale _ (List.mem_cons_self _ _) h
      · exact ih pos hrest hl e he
    | some c =>
      simp only [placed, h, List.mem_cons] at he
      have hl : pos + (c.length + (dataRegion view rest).length) < 2 ^ 63 := by
        simpa [dataRegion, payload, h] using hlen
      rcases he with rfl | he
      · simp only [fitsS64]
        norm_num at hl ⊢
        omega
      · exact ih (pos + c.length) hrest (by omega) e he

/-- The container `compress` writes, split into its regions, and its index read
back. -/
theorem readIndex_compress (fs : FS) (junk : Buffer) (files : List File) (outFile : Path)
    (bytes : List Byte)
    (hout : cstr outFile ≠ [])
    (hstale : ∀ f ∈ files, (packView fs outFile).lookup f.path = none →
      fitsS64 f.size ∧ fitsS64 f.offset)
    (hc : (compress fs junk files outFile).1 (cstr outFile) = some bytes)
    (hlen : bytes.length < 2 ^ 63) :
    (compress fs junk files outFile).2 = placed (packView fs outFile) 0 files ∧
    bytes = dataRegion (packView fs outFile) files ++
      indexRegion (placed (packView fs outFile) 0 files) ++
      encodeS64 ((indexRegion (placed (packView fs outFile) 0 files)).length : Int) ∧
    trailerOf bytes = ((indexRegion (placed (packView fs outFile) 0 files)).length : Int) ∧
    readIndex bytes = (placed (packView fs outFile) 0 files, trailerOf bytes) ∧
    (bytes.length : Int) - WORD - trailerOf bytes =
      ((dataRegion (packView fs outFile) files).length : Int) := by
  rw [compress_eq fs junk files outFile hout] at hc ⊢
  simp only [FS.write, if_true, Option.some.injEq] at hc
  have hbl : bytes.length = (dataRegion (packView fs outFile) files).length +
      (indexRegion (placed (packView fs outFile) 0 files)).length + 8 := by
    rw [← hc]
    simp only [List.length_append, encodeS64_length]
  have hI : (indexRegion (placed (packView fs outFile) 0 files)).length < 2 ^ 63 := by omega
  have htr : trailerOf bytes =
      ((indexRegion (placed (packView fs outFile) 0 files)).length : Int) := by
    rw [← hc, trailerOf_append _ _ (encodeS64_length _)]
    apply decodeS64_encodeS64
    · have : (0 : Int) ≤ ((indexRegion (placed (packView fs outFile) 0 files)).length : Int) :=
        Int.natCast_nonneg _
      norm_num
      omega
    · exact_mod_cast hI
  have hstart : (bytes.length : Int) - WORD - trailerOf bytes =
      ((dataRegion (packView fs outFile) files).length : Int) := by
    rw [htr, hbl]
    simp only [WORD]
    push_cast
    ring
  refine ⟨rfl, hc.symm, htr, ?_, hstart⟩
  · rw [readIndex, hstart, htr, Int.toNat_natCast, Int.toNat_natCast]
    conv_lhs => rw [← hc]
    apply readRecords_index
    · intro e he
      have hp := mem_indexRegion_length _ e he
      have hf := placed_fits (packView fs outFile) files 0 hstale (by omega) e he
      refine ⟨?_, hf⟩
      norm_num at hI ⊢
      omega
    · exact length_le_indexRegion _
    · simp

/-! ## Claims about the index and the trailer -/

theorem placed_ranges (view : FS) : ∀ (files : List File) (pos : Nat),
    (∀ f ∈ files, view.lookup f.path = none → f.size = 0 ∧ f.offset = 0) →
    (∀ e ∈ placed view pos files, (e.size = 0 ∧ e.offset = 0) ∨
      ((pos : Int) ≤ e.offset ∧ 0 ≤ e.size ∧
        e.offset + e.size ≤ (pos : Int) + ((dataRegion view files).length : Int))) ∧
    (placed view pos files).Pairwise disjointRanges := by
  intro files
  induction files with
  | nil => intro pos _; simp [placed]
  | cons f rest ih =>
    intro pos hstale
    have hrest : ∀ g ∈ rest, view.lookup g.path = none → g.size = 0 ∧ g.offset = 0 :=
      fun g hg => hstale g (List.mem_cons_of_mem _ hg)
    cases h : view.lookup f.path with
    | none =>
      have hf := hstale f (List.mem_cons_self _ _) h
      have hd : dataRegion view (f :: rest) = dataRegion view rest := by
        simp [dataRegion, payload, h]
      obtain ⟨ih1, ih2⟩ := ih pos hrest
      simp only [placed, h, hd, List.mem_cons, List.pairwise_cons]
      refine ⟨?_, ?_, ih2⟩
      · rintro e (rfl | he)
        · exact Or.inl hf
        · exact ih1 e he
      · intro e _ x
        rw [hf.1, hf.2]
        omega
    | some c =>
      have hd : ((dataRegion view (f :: rest)).length : Int) =
          (c.length : Int) + ((dataRegion view rest).length : Int) := by
        simp [dataRegion, payload, h]
      obtain ⟨ih1, ih2⟩ := ih (pos + c.length) hrest
      simp only [placed, h, hd, List.mem_cons, List.pairwise_cons]
      refine ⟨?_, ?_, ih2⟩
      · rintro e (rfl | he)
        · right
          have : (0 : Int) ≤ ((dataRegion view rest).length : Int) := Int.natCast_nonneg _
          simp only
          omega
        · rcases ih1 e he with hz | hb
          · exact Or.inl hz
          · right
            push_cast at hb
            omega
      · intro e he x
        simp only
        rcases ih1 e he with hz | hb
        · rw [hz.1, hz.2]
          omega
        · push_cast at hb
          omega

/-- C9 (index read-back).  On every container written by `compress`, reading records
back to back with `File::deserialize` on fresh objects, from position
`length - 8 - trailer` and without a seek in between, yields exactly the entries
`compress` serialized, in order and with their path, size and offset, and the bytes
consumed meet the trailer value exactly after the last record.  The fields the entries
carry into the call fit their C++ types and the container is shorter than `2 ^ 63`
bytes. -/
theorem index_read_back (fs : FS) (junk : Buffer) (files : List File) (outFile : Path)
    (bytes : List Byte)
    (hout : cstr outFile ≠ [])
    (hfields : ∀ f ∈ files, fitsS64 f.size ∧ fitsS64 f.offset)
    (hc : (compress fs junk files outFile).1 (cstr outFile) = some bytes)
    (hlen : bytes.length < 2 ^ 63) :
    readIndex bytes = ((compress fs junk files outFile).2, trailerOf bytes) ∧
    bytes.drop ((bytes.length : Int) - WORD - trailerOf bytes).toNat =
      indexRegion (compress fs junk files outFile).2 ++ encodeS64 (trailerOf bytes) := by
  obtain ⟨h1, h2, h3, h4, h5⟩ := readIndex_compress fs junk files outFile bytes hout
    (fun f hf _ => hfields f hf) hc hlen
  rw [h1]
  refine ⟨h4, ?_⟩
  rw [h5, h3, Int.toNat_natCast]
  conv_lhs => rw [h2]
  rw [List.append_assoc, List.drop_left]

/-- The index of the scenario container reads back as `a.txt` (size 2, offset 0) and
`b.txt` (size 0, offset 2), after 58 bytes. -/
theorem index_read_back_witness :
    readIndex scenarioContainer = ([⟨aTxt, 2, 0⟩, ⟨bTxt, 0, 2⟩], 58) :=
  (index_read_back scenarioDisk zeroJunk (addAll [AddArg.path aTxt, AddArg.path bTxt]) outZp2
    scenarioContainer (by decide) (by decide) (by decide) (by decide)).1.trans (by decide)

theorem mem_add (acc : List File) (a : AddArg) (f : File) (h : f ∈ add acc a) :
    f ∈ acc ∨ (∃ p, a = AddArg.path p ∧ f = entryOf p) ∨ a = AddArg.file f := by
  cases a with
  | path p =>
    simp only [add, addString] at h
    split at h
    · exact Or.inl h
    · rcases List.mem_append.mp h with h | h
      · exact Or.inl h
      · exact Or.inr (Or.inl ⟨p, rfl, by simpa [entryOf] using h⟩)
  | file g =>
    simp only [add, addFile] at h
    split at h
    · exact Or.inl h
    · rcases List.mem_append.mp h with h | h
      · exact Or.inl h
      · exact Or.inr (Or.inr (by rw [List.mem_singleton.mp h]))

theorem mem_foldl_add : ∀ (calls : List AddArg) (acc : List File) (f : File),
    f ∈ calls.foldl add acc →
    f ∈ acc ∨ (∃ p, AddArg.path p ∈ calls ∧ f = entryOf p) ∨ AddArg.file f ∈ calls := by
  intro calls
  induction calls with
  | nil => intro acc f h; exact Or.inl h
  | cons a rest ih =>
    intro acc f h
    rcases ih (add acc a) f h with h | ⟨p, hp, rfl⟩ | h
    · rcases mem_add acc a f h with h | ⟨p, rfl, rfl⟩ | rfl
      · exact Or.inl h
      · exact Or.inr (Or.inl ⟨p, List.mem_cons_self _ _, rfl⟩)
      · exact Or.inr (Or.inr (List.mem_cons_self _ _))
    · exact Or.inr (Or.inl ⟨p, List.mem_cons_of_mem _ hp, rfl⟩)
    · exact Or.inr (Or.inr (List.mem_cons_of_mem _ h))

/-- An entry of a vector built by `add` calls was registered by `add(std::string)`, with
size 0 and offset 0, or is the argument of an `add(fc::File)` call. -/
theorem mem_addAll (calls : List AddArg) (f : File) (h : f ∈ addAll calls) :
    (f.size = 0 ∧ f.offset = 0) ∨ AddArg.file f ∈ calls := by
  rcases mem_foldl_add calls [] f h with h | ⟨p, _, rfl⟩ | h
  · simp at h
  · exact Or.inl ⟨rfl, rfl⟩
  · exact Or.inr h

/-- C5 (offset non-overlap), amended.  For every container written by `compress` from a
vector built with the public `add` operations in which every `add(fc::File)` argument
whose file cannot be opened at pack time carries size 0 and offset 0 (so for every
vector built with `add(std::string)` alone, and for every vector whose files all open),
the ranges `[offset, offset + size)` of the records in its index are pairwise disjoint
and lie between 0 and the length of the data region.  The container is shorter than
`2 ^ 63` bytes. -/
theorem index_within_data (fs : FS) (junk : Buffer) (calls : List AddArg) (outFile : Path)
    (bytes : List Byte)
    (hout : cstr outFile ≠ [])
    (hstale : ∀ f : File, AddArg.file f ∈ calls →
      (packView fs outFile).lookup f.path = none → f.size = 0 ∧ f.offset = 0)
    (hc : (compress fs junk (addAll calls) outFile).1 (cstr outFile) = some bytes)
    (hlen : bytes.length < 2 ^ 63) :
    IndexWithinData bytes := by
  have hzero : ∀ f ∈ addAll calls, (packView fs outFile).lookup f.path = none →
      f.size = 0 ∧ f.offset = 0 := by
    intro f hf hn
    rcases mem_addAll calls f hf with h | h
    · exact h
    · exact hstale f h hn
  obtain ⟨_, _, _, h4, h5⟩ := readIndex_compress fs junk (addAll calls) outFile bytes hout
    (fun f hf hn => by
      have := hzero f hf hn
      rw [this.1, this.2]
      exact ⟨by decide, by decide⟩) hc hlen
  obtain ⟨hr1, hr2⟩ := placed_ranges (packView fs outFile) (addAll calls) 0 hzero
  rw [IndexWithinData, h4, h5]
  refine ⟨hr2, ?_⟩
  intro e he
  have : (0 : Int) ≤ ((dataRegion (packView fs outFile) (addAll calls)).length : Int) :=
    Int.natCast_nonneg _
  rcases hr1 e he with hz | hb
  · rw [hz.1, hz.2]
    omega
  · push_cast at hb
    omega

/-- With `a.txt` added by name and the existing `b.txt` added as an `fc::File` that
carries size 7 and offset 9, the packed ranges are `[0, 2)` and `[2, 2)`: disjoint and
inside the data region of 2 bytes. -/
theorem index_within_data_witness : IndexWithinData scenarioContainer :=
  index_within_data scenarioDisk zeroJunk [AddArg.path aTxt, AddArg.file ⟨bTxt, 7, 9⟩] outZp2
    scenarioContainer (by decide)
    (fun f hf hn => by
      have hf2 : f = ⟨bTxt, 7, 9⟩ := by simpa using hf
      subst hf2
      exact absurd hn (by decide))
    (by decide) (by decide)

/-- C5 as stated fails for `add(fc::File)`: an entry registered as `a.txt` with size 5
and offset 0, whose file does not exist at pack time, is written to the index as it
is, and its range `[0, 5)` does not lie in the empty data region. -/
theorem index_within_data_fails_for_stale_entry :
    (compress emptyDisk zeroJunk (addAll [AddArg.file ⟨aTxt, 5, 0⟩]) outZp2).1 outZp2 =
      some staleContainer ∧
    ¬ IndexWithinData staleContainer := by
  refine ⟨by decide, ?_⟩
  intro h
  have hr : (readIndex staleContainer).1 = [⟨aTxt, 5, 0⟩] := by decide
  have ht : (staleContainer.length : Int) - WORD - trailerOf staleContainer = 0 := by decide
  have := h.2 ⟨aTxt, 5, 0⟩ (by rw [hr]; exact List.mem_singleton.mpr rfl)
  rw [ht] at this
  exact absurd this.2 (by decide)

/-- C1 (round trip), evaluated on two inputs.  `decompress` reads each record from where
the copy of the previous payload left the cursor, not from the index.  On the scenario
of the specification `compress` writes the expected container, but `decompress`, run in
a directory that holds only this container, reads the record of `a.txt` twice and never
creates `b.txt`.  On `craftedDisk`, `decompress` run right after `compress` in the same
directory reads the payload of `b.txt` as its second record and truncates `a.txt`, which
held `X` at pack time. -/
theorem roundtrip_scenario_loses_second_file :
    (compress scenarioDisk zeroJunk (addAll [AddArg.path aTxt, AddArg.path bTxt]) outZp2).1
      outZp2 = some scenarioContainer ∧
    (decompress (emptyDisk.write outZp2 scenarioContainer) zeroJunk outZp2).1 aTxt =
      some hi ∧
    (decompress (emptyDisk.write outZp2 scenarioContainer) zeroJunk outZp2).1 bTxt = none ∧
    (decompress (emptyDisk.write outZp2 scenarioContainer) zeroJunk outZp2).2 =
      [LogLine.loading outZp2, LogLine.extracting aTxt 0 0, LogLine.extracting aTxt 0 0,
        LogLine.extracted outZp2] ∧
    (compress craftedDisk zeroJunk (addAll [AddArg.path aTxt, AddArg.path bTxt]) outZp2).1
      aTxt = some [88] ∧
    (decompress
      (compress craftedDisk zeroJunk (addAll [AddArg.path aTxt, AddArg.path bTxt]) outZp2).1
      zeroJunk outZp2).1 aTxt = some [] := by
  refine ⟨by decide, by decide, by decide, by decide, by decide, by decide⟩

theorem decodeU64_zero : decodeU64 (encodeU64 0) = 0 := by decide

theorem decodeS64_zero : decodeS64 (encodeS64 0) = 0 := by decide

/-- On a failed stream `deserialize` reads nothing: a fresh object stays as it is. -/
theorem deserialize_failed (s : IStream) (h : s.fail = true) :
    File.fresh.deserialize s = (File.fresh, s) := by
  simp [File.deserialize, File.fresh, IStream.readU64, IStream.readS64, IStream.read,
    IStream.get, h, decodeU64_zero, decodeS64_zero]

/-- On a failed stream a pass of the index loop opens no file and copies nothing; it
adds 24 to `processed`. -/
theorem decompressStep_failed (junk : Buffer) (st : UnpackState) (h : st.inp.fail = true) :
    decompressStep junk st = { st with processed := st.processed + 24 } := by
  have hcs : cstr ([] : Path) = [] := rfl
  have hd := deserialize_failed st.inp h
  simp only [decompressStep, hd]
  simp [File.fresh, OStream.openTrunc, hcs, IStream.seekBeg, IStream.seekTo, h, copy, copyLoop,
    OStream.close, File.recordLength, WORD]

theorem decompressStep_processed (junk : Buffer) (st : UnpackState) :
    st.processed + 24 ≤ (decompressStep junk st).processed := by
  simp only [decompressStep, File.recordLength, WORD]
  have : (0 : Int) ≤ (((File.fresh.deserialize st.inp).1.path.length : Nat) : Int) :=
    Int.natCast_nonneg _
  push_cast
  omega

/-- More passes than `size - processed` are never used: with any two bounds of at least
that many passes the index loop gives the same result, having left by its condition. -/
theorem decompressLoop_fuel (junk : Buffer) (size : Int) :
    ∀ (fuel1 fuel2 : Nat) (st : UnpackState),
      (size - st.processed).toNat ≤ fuel1 → (size - st.processed).toNat ≤ fuel2 →
      decompressLoop junk size fuel1 st = decompressLoop junk size fuel2 st := by
  intro fuel1
  induction fuel1 with
  | zero =>
    intro fuel2 st h1 _
    have hge : ¬ st.processed < size := by omega
    cases fuel2 <;> simp [decompressLoop, hge]
  | succ fuel1 ih =>
    intro fuel2 st h1 h2
    by_cases hlt : st.processed < size
    · obtain ⟨k, rfl⟩ : ∃ k, fuel2 = k + 1 := ⟨fuel2 - 1, by omega⟩
      have hstep := decompressStep_processed junk st
      simp only [decompressLoop, hlt, if_true]
      exact ih k _ (by omega) (by omega)
    · cases fuel2 <;> simp [decompressLoop, hlt]

/-! ## The passes of the loops -/

theorem copyLoopTrace_fst (logAs : Option Path) (size : Int) :
    ∀ (fuel : Nat) (fSize : Int) (st : CopyState),
      (copyLoopTrace logAs size fuel fSize st).1 = copyLoop logAs size fuel fSize st := by
  intro fuel
  induction fuel with
  | zero => intro fSize st; rfl
  | succ fuel ih =>
    intro fSize st
    by_cases h : fSize < size
    · simp only [copyLoopTrace, copyLoop, h, if_true, ih]
    · simp only [copyLoopTrace, copyLoop, h, if_false]

theorem copyTrace_fst (logAs : Option Path) (size : Int) (st : CopyState) :
    (copyTrace logAs size st).1 = copy logAs size st :=
  copyLoopTrace_fst logAs size _ _ st

theorem decompressLoopTrace_fst (junk : Buffer) (size : Int) :
    ∀ (fuel : Nat) (st : UnpackState),
      (decompressLoopTrace junk size fuel st).1 = decompressLoop junk size fuel st := by
  intro fuel
  induction fuel with
  | zero => intro st; rfl
  | succ fuel ih =>
    intro st
    by_cases h : st.processed < size
    · simp only [decompressLoopTrace, decompressLoop, h, if_true, ih]
    · simp only [decompressLoopTrace, decompressLoop, h, if_false]

/-- The function `decompress` is the index loop run from `decompressEntry`. -/
theorem decompress_eq_entry (fs : FS) (junk : Buffer) (file : Path) :
    decompress fs junk file =
      ((decompressLoopTrace junk (decompressEntry fs file).1 (decompressEntry fs file).1.toNat
          (decompressEntry fs file).2).1.fs,
        (decompressLoopTrace junk (decompressEntry fs file).1 (decompressEntry fs file).1.toNat
          (decompressEntry fs file).2).1.log ++ [LogLine.extracted file]) := by
  rw [decompressLoopTrace_fst]
  rfl

/-- The chunk sizes of the passes depend on `size` only: full chunks, then the
remainder if there is one. -/
theorem copyLoopTrace_chunks (logAs : Option Path) (n : Nat) :
    ∀ (fuel k : Nat) (st : CopyState), n - k ≤ fuel →
      (copyLoopTrace logAs (n : Int) fuel (k : Int) st).2 =
        List.replicate ((n - k) / BYTES_PER_CHUNK) BYTES_PER_CHUNK ++
          (if (n - k) % BYTES_PER_CHUNK = 0 then [] else [(n - k) % BYTES_PER_CHUNK]) := by
  have hC : BYTES_PER_CHUNK = 1048576 := rfl
  intro fuel
  induction fuel with
  | zero =>
    intro k st h
    have h0 : n - k = 0 := by omega
    simp [copyLoopTrace, h0]
  | succ fuel ih =>
    intro k st h
    by_cases hlt : (k : Int) < (n : Int)
    · have hkn : k < n := by exact_mod_cast hlt
      by_cases hlast : (n : Int) - (k : Int) < (BYTES_PER_CHUNK : Int)
      · have hsz : ((n : Int) - (k : Int)).toNat = n - k := by omega
        have hcast : (k : Int) + (BYTES_PER_CHUNK : Int) = ((k + BYTES_PER_CHUNK : Nat) : Int) := by
          push_cast
          rfl
        have hnext := ih (k + BYTES_PER_CHUNK)
        simp only [copyLoopTrace, hlt, if_true, hlast, hsz, hcast]
        rw [hnext _ (by omega)]
        have h1 : (n - k) / BYTES_PER_CHUNK = 0 := by rw [hC] at hlast ⊢; omega
        have h2 : (n - k) % BYTES_PER_CHUNK = n - k := by rw [hC] at hlast ⊢; omega
        have h3 : n - (k + BYTES_PER_CHUNK) = 0 := by rw [hC] at hlast ⊢; omega
        have h4 : n - k ≠ 0 := by omega
        simp [h1, h2, h3, h4]
      · have hsz : (BYTES_PER_CHUNK : Int).toNat = BYTES_PER_CHUNK := Int.toNat_natCast _
        have hcast : (k : Int) + (BYTES_PER_CHUNK : Int) = ((k + BYTES_PER_CHUNK : Nat) : Int) := by
          push_cast
          rfl
        have hnext := ih (k + BYTES_PER_CHUNK)
        simp only [copyLoopTrace, hlt, if_true, hlast, if_false, hsz, hcast]
        rw [hnext _ (by rw [hC] at hlast ⊢; omega)]
        have h1 : (n - k) / BYTES_PER_CHUNK = (n - (k + BYTES_PER_CHUNK)) / BYTES_PER_CHUNK + 1 := by
          rw [hC] at hlast ⊢; omega
        have h2 : (n - k) % BYTES_PER_CHUNK = (n - (k + BYTES_PER_CHUNK)) % BYTES_PER_CHUNK := by
          rw [hC] at hlast ⊢; omega
        rw [h1, h2, List.replicate_succ, List.cons_append]
    · have h0 : n - k = 0 := by
        have : (n : Int) ≤ (k : Int) := not_lt.mp hlt
        omega
      simp [copyLoopTrace, hlt, h0]

theorem copyTrace_chunks (logAs : Option Path) (size : Int) (st : CopyState) :
    (copyTrace logAs size st).2 =
      List.replicate (size.toNat / BYTES_PER_CHUNK) BYTES_PER_CHUNK ++
        (if size.toNat % BYTES_PER_CHUNK = 0 then [] else [size.toNat % BYTES_PER_CHUNK]) := by
  by_cases h : 0 ≤ size
  · obtain ⟨n, rfl⟩ := Int.eq_ofNat_of_zero_le h
    have := copyLoopTrace_chunks logAs n n 0 st (by omega)
    simpa [copyTrace] using this
  · have h0 : size.toNat = 0 := by omega
    simp [copyTrace, h0, copyLoopTrace]

theorem chunks_length (n : Nat) :
    (List.replicate (n / BYTES_PER_CHUNK) BYTES_PER_CHUNK ++
      (if n % BYTES_PER_CHUNK = 0 then [] else [n % BYTES_PER_CHUNK])).length =
      (n + BYTES_PER_CHUNK - 1) / BYTES_PER_CHUNK := by
  have hC : BYTES_PER_CHUNK = 1048576 := rfl
  rw [hC]
  split <;> simp <;> omega

theorem chunks_sum (n : Nat) :
    (List.replicate (n / BYTES_PER_CHUNK) BYTES_PER_CHUNK ++
      (if n % BYTES_PER_CHUNK = 0 then [] else [n % BYTES_PER_CHUNK])).sum = n := by
  have hC : BYTES_PER_CHUNK = 1048576 := rfl
  rw [hC]
  split <;> simp <;> omega

theorem chunks_bounds (n c : Nat)
    (h : c ∈ List.replicate (n / BYTES_PER_CHUNK) BYTES_PER_CHUNK ++
      (if n % BYTES_PER_CHUNK = 0 then [] else [n % BYTES_PER_CHUNK])) :
    1 ≤ c ∧ c ≤ BYTES_PER_CHUNK := by
  have hC : BYTES_PER_CHUNK = 1048576 := rfl
  rw [hC] at h ⊢
  rcases List.mem_append.mp h with h | h
  · have := (List.mem_replicate.mp h).2
    omega
  · split at h
    · simp at h
    · have := List.mem_singleton.mp h
      omega

theorem chunks_last (n : Nat) (hn : 0 < n) :
    List.replicate (n / BYTES_PER_CHUNK) BYTES_PER_CHUNK ++
      (if n % BYTES_PER_CHUNK = 0 then [] else [n % BYTES_PER_CHUNK]) =
    List.replicate ((n + BYTES_PER_CHUNK - 1) / BYTES_PER_CHUNK - 1) BYTES_PER_CHUNK ++
      [n - BYTES_PER_CHUNK * ((n + BYTES_PER_CHUNK - 1) / BYTES_PER_CHUNK - 1)] := by
  have hC : BYTES_PER_CHUNK = 1048576 := rfl
  rw [hC]
  by_cases h : n % 1048576 = 0
  · obtain ⟨q, hq⟩ : ∃ q, n / 1048576 = q + 1 := ⟨n / 1048576 - 1, by omega⟩
    have h1 : (n + 1048576 - 1) / 1048576 - 1 = q := by omega
    have h2 : n - 1048576 * q = 1048576 := by omega
    rw [if_pos h, hq, h1, h2, List.append_nil, List.replicate_succ']
  · have h1 : (n + 1048576 - 1) / 1048576 - 1 = n / 1048576 := by omega
    have h2 : n - 1048576 * (n / 1048576) = n % 1048576 := by omega
    rw [if_neg h, h1, h2]

theorem take_length (buf : Buffer) (n : Nat) : (Buffer.take buf n).length = n := by
  simp [Buffer.take]

/-- C16 (chunked copy).  For every byte count `n` and every source that holds `n` bytes
from its position `base` on, the copy loop of `compress` (`logAs` none) and of
`decompress` (`logAs` the entry) makes `ceil(n / 0x100000)` passes; every chunk size is
between 1 and `0x100000`; for `n > 0` every chunk but the last is `0x100000` and the
last is the remainder, for `n = 0` there is no pass; the chunk sizes sum to `n`; and
the bytes written to the destination are the `n` bytes of the source from `base` on, the
source being left behind them. -/
theorem chunked_copy (logAs : Option Path) (d : List Byte) (base n : Nat)
    (buf : Buffer) (out : OStream) (log : List LogLine)
    (hfit : base + n ≤ d.length) (hok : out.ok = true) :
    (copyTrace logAs n ⟨⟨d, base, false⟩, buf, out, log⟩).2.length =
        (n + BYTES_PER_CHUNK - 1) / BYTES_PER_CHUNK ∧
    (∀ c ∈ (copyTrace logAs n ⟨⟨d, base, false⟩, buf, out, log⟩).2,
      1 ≤ c ∧ c ≤ BYTES_PER_CHUNK) ∧
    (0 < n → (copyTrace logAs n ⟨⟨d, base, false⟩, buf, out, log⟩).2 =
      List.replicate ((n + BYTES_PER_CHUNK - 1) / BYTES_PER_CHUNK - 1) BYTES_PER_CHUNK ++
        [n - BYTES_PER_CHUNK * ((n + BYTES_PER_CHUNK - 1) / BYTES_PER_CHUNK - 1)]) ∧
    (n = 0 → (copyTrace logAs n ⟨⟨d, base, false⟩, buf, out, log⟩).2 = []) ∧
    (copyTrace logAs n ⟨⟨d, base, false⟩, buf, out, log⟩).2.sum = n ∧
    (copy logAs n ⟨⟨d, base, false⟩, buf, out, log⟩).out.data =
        out.data ++ (d.drop base).take n ∧
    (copy logAs n ⟨⟨d, base, false⟩, buf, out, log⟩).inp = ⟨d, base + n, false⟩ := by
  have hc := copyTrace_chunks logAs (n : Int) ⟨⟨d, base, false⟩, buf, out, log⟩
  rw [Int.toNat_natCast] at hc
  have hfull := copyLoop_full logAs d base n hfit n 0 buf out log (Nat.zero_le _) (by omega)
  simp only [Nat.add_zero, Nat.cast_zero, Nat.sub_zero] at hfull
  refine ⟨?_, ?_, ?_, ?_, ?_, ?_, ?_⟩
  · rw [hc, chunks_length]
  · intro c h
    rw [hc] at h
    exact chunks_bounds n c h
  · intro hn
    rw [hc, chunks_last n hn]
  · intro hn
    rw [hc, hn]
    decide
  · rw [hc, chunks_sum]
  · have : copy logAs (n : Int) ⟨⟨d, base, false⟩, buf, out, log⟩ =
        copyLoop logAs (n : Int) n 0 ⟨⟨d, base, false⟩, buf, out, log⟩ := by
      simp [copy]
    rw [this, hfull.1]
    simp [OStream.write, hok]
  · have : copy logAs (n : Int) ⟨⟨d, base, false⟩, buf, out, log⟩ =
        copyLoop logAs (n : Int) n 0 ⟨⟨d, base, false⟩, buf, out, log⟩ := by
      simp [copy]
    rw [this, hfull.2]

/-- A copy of `0x100000 + 1` bytes takes two passes, of `0x100000` bytes and of 1
byte. -/
theorem chunked_copy_witness :
    (copyTrace none (1048577 : Nat)
      ⟨⟨List.replicate 1048577 0, 0, false⟩, zeroJunk, ⟨outZp2, true, []⟩, []⟩).2 =
      [1048576, 1] :=
  ((chunked_copy none (List.replicate 1048577 0) 0 1048577 zeroJunk ⟨outZp2, true, []⟩ []
    (by rw [List.length_replicate]) rfl).2.2.1 (by decide)).trans (by decide)

/-! ## The number of passes of the index loop -/

theorem decompressLoopTrace_length (junk : Buffer) (size : Int) :
    ∀ (fuel : Nat) (st : UnpackState),
      (decompressLoopTrace junk size fuel st).2.length ≤
        ((size - st.processed).toNat + 23) / 24 := by
  intro fuel
  induction fuel with
  | zero => intro st; simp [decompressLoopTrace]
  | succ fuel ih =>
    intro st
    by_cases hlt : st.processed < size
    · have hstep := decompressStep_processed junk st
      have := ih (decompressStep junk st)
      simp only [decompressLoopTrace, hlt, if_true, List.length_cons]
      omega
    · simp [decompressLoopTrace, hlt]

theorem decompressLoop_exits (junk : Buffer) (size : Int) :
    ∀ (fuel : Nat) (st : UnpackState), (size - st.processed).toNat ≤ fuel →
      size ≤ (decompressLoop junk size fuel st).processed := by
  intro fuel
  induction fuel with
  | zero =>
    intro st h
    simp only [decompressLoop]
    omega
  | succ fuel ih =>
    intro st h
    by_cases hlt : st.processed < size
    · have hstep := decompressStep_processed junk st
      simp only [decompressLoop, hlt, if_true]
      exact ih _ (by omega)
    · simp only [decompressLoop, hlt, if_false]
      omega

/-- The value `decompress` reads into `size` is the trailer of the container. -/
theorem decompressEntry_size (fs : FS) (file : Path) (bytes : List Byte)
    (hc : fs.lookup file = some bytes) (h8 : 8 ≤ bytes.length) :
    (decompressEntry fs file).1 = trailerOf bytes := by
  have hseek : IStream.seekCur ⟨bytes, bytes.length, false⟩ (-(8 : Int)) =
      ⟨bytes, bytes.length - 8, false⟩ := by
    have h1 : ¬ ((bytes.length : Int) + -8 < 0) := by omega
    have h2 : ((bytes.length : Int) + -8).toNat = bytes.length - 8 := by omega
    simp [IStream.seekCur, IStream.seekTo, h1, h2]
  have hget := get_avail bytes (bytes.length - 8) 8 (by omega)
  have hpos : bytes.length - 8 + 8 = bytes.length := by omega
  have htake : (bytes.drop (bytes.length - 8)).take 8 = bytes.drop (bytes.length - 8) := by
    apply List.take_of_length_le
    simp only [List.length_drop]
    omega
  have hl : (bytes.drop (bytes.length - 8)).length = 8 := by
    simp only [List.length_drop]
    omega
  have hread : IStream.readS64 ⟨bytes, bytes.length - 8, false⟩ 0 =
      (⟨bytes, bytes.length, false⟩, trailerOf bytes) := by
    unfold IStream.readS64 IStream.read
    simp only [WORD]
    rw [hget, hpos, htake]
    simp only [hl]
    have hdrop : (encodeS64 0).drop 8 = [] := by decide
    rw [hdrop, List.append_nil]
    rfl
  simp only [decompressEntry, IStream.openAte, hc, WORD, Nat.cast_ofNat, hseek, hread]

/-! ## Deserializing into a used object -/

theorem read_over (d pre bs post target : List Byte) (p n : Nat)
    (hd : d = pre ++ bs ++ post) (hp : p = pre.length) (hn : n = bs.length) :
    IStream.read ⟨d, p, false⟩ n target = (⟨d, p + n, false⟩, bs ++ target.drop n) := by
  subst hn
  simp only [IStream.read, get_exact d pre bs post p bs.length hd hp rfl]

/-- Deserializing into any object at the start of a serialized record: the path read
replaces the first characters of the path the object has, and what lies behind them
stays. -/
theorem deserialize_used_at (pre t : List Byte) (g e : File)
    (hp : e.path.length < 2 ^ 64)
    (hs1 : -2 ^ 63 ≤ e.size) (hs2 : e.size < 2 ^ 63)
    (ho1 : -2 ^ 63 ≤ e.offset) (ho2 : e.offset < 2 ^ 63) :
    g.deserialize ⟨pre ++ e.serialize ++ t, pre.length, false⟩ =
      (⟨e.path ++ g.path.drop e.path.length, e.size, e.offset⟩,
        ⟨pre ++ e.serialize ++ t, pre.length + e.path.length + 24, false⟩) := by
  obtain ⟨path, size, offset⟩ := e
  obtain ⟨gpath, gsize, goffset⟩ := g
  simp only at hp hs1 hs2 ho1 ho2
  have h1 := read_exact (pre ++ File.serialize ⟨path, size, offset⟩ ++ t) pre
    (encodeU64 path.length) (path ++ encodeS64 size ++ encodeS64 offset ++ t)
    (encodeU64 0) pre.length 8 (by simp [File.serialize]) rfl
    (encodeU64_length _).symm (encodeU64_length _)
  have h2 : ∀ target : List Byte,
      IStream.read ⟨pre ++ File.serialize ⟨path, size, offset⟩ ++ t, pre.length + 8, false⟩
        path.length target =
      (⟨pre ++ File.serialize ⟨path, size, offset⟩ ++ t, pre.length + 8 + path.length, false⟩,
        path ++ target.drop path.length) := fun target =>
    read_over (pre ++ File.serialize ⟨path, size, offset⟩ ++ t)
      (pre ++ encodeU64 path.length) path (encodeS64 size ++ encodeS64 offset ++ t)
      target (pre.length + 8) path.length
      (by simp [File.serialize]) (by simp [encodeU64_length]) rfl
  have h3 := read_exact (pre ++ File.serialize ⟨path, size, offset⟩ ++ t)
    (pre ++ encodeU64 path.length ++ path) (encodeS64 size) (encodeS64 offset ++ t)
    (encodeS64 gsize) (pre.length + 8 + path.length) 8
    (by simp [File.serialize]) (by simp [encodeU64_length]; omega) (encodeS64_length _).symm
    (encodeS64_length _)
  have h4 := read_exact (pre ++ File.serialize ⟨path, size, offset⟩ ++ t)
    (pre ++ encodeU64 path.length ++ path ++ encodeS64 size) (encodeS64 offset) t
    (encodeS64 goffset) (pre.length + 8 + path.length + 8) 8
    (by simp [File.serialize]) (by simp [encodeU64_length, encodeS64_length]; omega)
    (encodeS64_length _).symm (encodeS64_length _)
  have hl : decodeU64 (encodeU64 path.length) = path.length := decodeU64_encodeU64 _ hp
  simp only [File.deserialize, IStream.readU64, IStream.readS64, WORD, h1, hl, h2, h3, h4,
    decodeS64_encodeS64 _ hs1 hs2, decodeS64_encodeS64 _ ho1 ho2]
  have hpath : (path ++ List.drop path.length
      (if gpath.length < path.length then
        gpath ++ List.replicate (path.length - gpath.length) (0 : Byte) else gpath)) =
      path ++ List.drop path.length gpath := by
    split
    · rename_i hlt
      rw [List.drop_of_length_le (by simp; omega), List.drop_of_length_le (by omega)]
    · rfl
  rw [hpath]
  simp only [Prod.mk.injEq, IStream.mk.injEq, true_and, and_true]
  omega

/-- C19 (deserialize into a used `File`).  For every record, with path length `len`,
and every `File` object whose path has length `m`: when `m > len`, `File::deserialize`
overwrites the first `len` characters of the path only, the length stays `m` and the
last `m - len` characters are unchanged, so the path differs from the serialized one;
when `m <= len` the path becomes the serialized path.  Size and offset are read in
both cases. -/
theorem deserialize_into_used (g e : File) (t : List Byte)
    (hp : e.path.length < 2 ^ 64)
    (hs : -2 ^ 63 ≤ e.size ∧ e.size < 2 ^ 63)
    (ho : -2 ^ 63 ≤ e.offset ∧ e.offset < 2 ^ 63) :
    (e.path.length < g.path.length →
      (g.deserialize ⟨e.serialize ++ t, 0, false⟩).1.path.take e.path.length = e.path ∧
      (g.deserialize ⟨e.serialize ++ t, 0, false⟩).1.path.length = g.path.length ∧
      (g.deserialize ⟨e.serialize ++ t, 0, false⟩).1.path.drop e.path.length =
        g.path.drop e.path.length ∧
      (g.deserialize ⟨e.serialize ++ t, 0, false⟩).1.path ≠ e.path) ∧
    (g.path.length ≤ e.path.length →
      (g.deserialize ⟨e.serialize ++ t, 0, false⟩).1.path = e.path) ∧
    (g.deserialize ⟨e.serialize ++ t, 0, false⟩).1.size = e.size ∧
    (g.deserialize ⟨e.serialize ++ t, 0, false⟩).1.offset = e.offset := by
  have h := deserialize_used_at [] t g e hp hs.1 hs.2 ho.1 ho.2
  simp only [List.nil_append, List.length_nil] at h
  rw [h]
  refine ⟨?_, ?_, rfl, rfl⟩
  · intro hlt
    refine ⟨by simp, by simp; omega, by simp, ?_⟩
    intro heq
    have := congrArg List.length heq
    simp at this
    omega
  · intro hle
    simp only
    rw [List.drop_of_length_le hle, List.append_nil]

/-- Deserializing the record of `a` into an object whose path is `b.txt` leaves a path
of 5 characters, not `a`; deserializing the record of `b.txt` into an object whose path
is `a` gives `b.txt`. -/
theorem deserialize_into_used_witness :
    ((File.deserialize ⟨bTxt, 0, 0⟩ ⟨File.serialize ⟨aName, 2, 0⟩ ++ [], 0, false⟩).1.path.length
        = bTxt.length ∧
      (File.deserialize ⟨bTxt, 0, 0⟩ ⟨File.serialize ⟨aName, 2, 0⟩ ++ [], 0, false⟩).1.path
        ≠ aName) ∧
    (File.deserialize ⟨aName, 0, 0⟩ ⟨File.serialize ⟨bTxt, 2, 0⟩ ++ [], 0, false⟩).1.path =
      bTxt :=
  ⟨⟨((deserialize_into_used ⟨bTxt, 0, 0⟩ ⟨aName, 2, 0⟩ [] (by decide) (by decide)
      (by decide)).1 (by decide)).2.1,
    ((deserialize_into_used ⟨bTxt, 0, 0⟩ ⟨aName, 2, 0⟩ [] (by decide) (by decide)
      (by decide)).1 (by decide)).2.2.2⟩,
    (deserialize_into_used ⟨aName, 0, 0⟩ ⟨bTxt, 2, 0⟩ [] (by decide) (by decide)
      (by decide)).2.1 (by decide)⟩

/-! ## A pass of the index loop on a record -/

/-- The state in which `decompress` enters the index loop on an existing container of at
least 8 bytes. -/
theorem decompressEntry_eq (fs : FS) (file : Path) (bytes : List Byte)
    (hc : fs.lookup file = some bytes) (h8 : 8 ≤ bytes.length) :
    decompressEntry fs file =
      (trailerOf bytes,
        { fs := fs,
          inp := IStream.seekTo ⟨bytes, bytes.length, false⟩
            ((bytes.length : Int) + (-(8 : Int) - trailerOf bytes)),
          log := [LogLine.loading file], processed := 0 }) := by
  have hseek : IStream.seekCur ⟨bytes, bytes.length, false⟩ (-(8 : Int)) =
      ⟨bytes, bytes.length - 8, false⟩ := by
    have h1 : ¬ ((bytes.length : Int) + -8 < 0) := by omega
    have h2 : ((bytes.length : Int) + -8).toNat = bytes.length - 8 := by omega
    simp [IStream.seekCur, IStream.seekTo, h1, h2]
  have hget := get_avail bytes (bytes.length - 8) 8 (by omega)
  have hpos : bytes.length - 8 + 8 = bytes.length := by omega
  have htake : (bytes.drop (bytes.length - 8)).take 8 = bytes.drop (bytes.length - 8) := by
    apply List.take_of_length_le
    simp only [List.length_drop]
    omega
  have hl : (bytes.drop (bytes.length - 8)).length = 8 := by
    simp only [List.length_drop]
    omega
  have hread : IStream.readS64 ⟨bytes, bytes.length - 8, false⟩ 0 =
      (⟨bytes, bytes.length, false⟩, trailerOf bytes) := by
    unfold IStream.readS64 IStream.read
    simp only [WORD]
    rw [hget, hpos, htake]
    simp only [hl]
    have hdrop : (encodeS64 0).drop 8 = [] := by decide
    rw [hdrop, List.append_nil]
    rfl
  simp only [decompressEntry, IStream.openAte, hc, WORD, Nat.cast_ofNat, hseek, hread,
    IStream.seekEnd]

/-- C15 (exact-boundary iteration), evaluated on two containers written by `compress`.
The loop of `decompress` reads its next record where the copy of the previous payload
ended, at `offset + size`, not behind the previous record.  On the scenario container
(records `a.txt`, `b.txt`) its two passes both read the record of `a.txt`.  On the
container of three empty files `a`, `a.txt`, `b.txt` (records of 25, 29 and 29 bytes,
trailer 83) it reads the record of `a` in four passes and leaves with `processed` at
100. -/
theorem index_loop_rereads_first_record :
    (readIndex scenarioContainer).1 = [⟨aTxt, 2, 0⟩, ⟨bTxt, 0, 2⟩] ∧
    decompressTrace (emptyDisk.write outZp2 scenarioContainer) zeroJunk outZp2 =
      [⟨aTxt, 2, 0⟩, ⟨aTxt, 2, 0⟩] ∧
    (compress emptyFilesDisk zeroJunk
      (addAll [AddArg.path aName, AddArg.path aTxt, AddArg.path bTxt]) outZp2).1 outZp2 =
      some emptyFilesContainer ∧
    readIndex emptyFilesContainer = ([⟨aName, 0, 0⟩, ⟨aTxt, 0, 0⟩, ⟨bTxt, 0, 0⟩], 83) ∧
    decompressTrace (emptyDisk.write outZp2 emptyFilesContainer) zeroJunk outZp2 =
      [⟨aName, 0, 0⟩, ⟨aName, 0, 0⟩, ⟨aName, 0, 0⟩, ⟨aName, 0, 0⟩] ∧
    (decompressLoop zeroJunk
      (decompressEntry (emptyDisk.write outZp2 emptyFilesContainer) outZp2).1
      (decompressEntry (emptyDisk.write outZp2 emptyFilesContainer) outZp2).1.toNat
      (decompressEntry (emptyDisk.write outZp2 emptyFilesContainer) outZp2).2).processed =
      100 := by
  refine ⟨by decide, by decide, by decide, by decide, by decide, by decide⟩

theorem placed_congr (view : FS) : ∀ (files1 files2 : List File) (pos : Nat),
    files1.map File.path = files2.map File.path →
    (∀ fg ∈ files1.zip files2, view.lookup fg.1.path = none →
      fg.1.size = fg.2.size ∧ fg.1.offset = fg.2.offset) →
    placed view pos files1 = placed view pos files2 ∧
    dataRegion view files1 = dataRegion view files2 := by
  intro files1
  induction files1 with
  | nil =>
    intro files2 pos hp _
    have : files2 = [] := by simpa using hp.symm
    subst this
    exact ⟨rfl, rfl⟩
  | cons f rest ih =>
    intro files2 pos hp hst
    cases files2 with
    | nil => simp at hp
    | cons g rest2 =>
      simp only [List.map_cons, List.cons.injEq] at hp
      obtain ⟨hfg, hrest⟩ := hp
      have hst2 : ∀ fg ∈ rest.zip rest2, view.lookup fg.1.path = none →
          fg.1.size = fg.2.size ∧ fg.1.offset = fg.2.offset := by
        intro fg hfgm
        exact hst fg (by simp [List.zip_cons_cons, hfgm])
      cases h : view.lookup f.path with
      | none =>
        have h' : view.lookup g.path = none := by rw [← hfg]; exact h
        have hh := hst (f, g) (by simp [List.zip_cons_cons]) h
        have hfeq : f = g := by
          cases f
          cases g
          simp only [File.mk.injEq]
          exact ⟨hfg, hh.1, hh.2⟩
        obtain ⟨i1, i2⟩ := ih rest2 pos hrest hst2
        simp only [dataRegion] at i2
        simp only [placed, h, h', i1, hfeq, dataRegion, List.map_cons, List.flatten_cons, payload,
          i2, and_self]
      | some c =>
        have h' : view.lookup g.path = some c := by rw [← hfg]; exact h
        obtain ⟨i1, i2⟩ := ih rest2 (pos + c.length) hrest hst2
        simp only [dataRegion] at i2
        simp only [placed, h, h', i1, hfg, dataRegion, List.map_cons, List.flatten_cons, payload,
          i2, and_self]

/-- C14 (fresh pass), amended.  For every two vectors that hold the same sequence of
paths and agree on the size and offset of every entry whose file cannot be opened at
pack time, whatever size and offset the other entries carry, `compress` writes the same
container and leaves the same entries, also with different chunk buffers; so when every
registered file opens the container is a function of the path sequence and the file
contents alone. -/
theorem pack_fresh_pass (fs : FS) (junk1 junk2 : Buffer) (files1 files2 : List File)
    (outFile : Path)
    (hout : cstr outFile ≠ [])
    (hpaths : files1.map File.path = files2.map File.path)
    (hstale : ∀ fg ∈ files1.zip files2, (packView fs outFile).lookup fg.1.path = none →
      fg.1.size = fg.2.size ∧ fg.1.offset = fg.2.offset) :
    compress fs junk1 files1 outFile = compress fs junk2 files2 outFile := by
  obtain ⟨h1, h2⟩ := placed_congr (packView fs outFile) files1 files2 0 hpaths hstale
  rw [compress_eq fs junk1 files1 outFile hout, compress_eq fs junk2 files2 outFile hout,
    h1, h2]

/-- In the scenario both files open, so entries that carry other sizes and offsets are
packed like the entries registered by name. -/
theorem pack_fresh_pass_witness :
    compress scenarioDisk zeroJunk [⟨aTxt, 7, 9⟩, ⟨bTxt, -1, 1⟩] outZp2 =
      compress scenarioDisk zeroJunk (addAll [AddArg.path aTxt, AddArg.path bTxt]) outZp2 :=
  pack_fresh_pass scenarioDisk zeroJunk zeroJunk [⟨aTxt, 7, 9⟩, ⟨bTxt, -1, 1⟩]
    (addAll [AddArg.path aTxt, AddArg.path bTxt]) outZp2 (by decide) (by decide) (by decide)

/-- C14 as stated fails: the entries left by a `compress` in the scenario directory hold
the same paths as freshly registered ones, but packed again where `a.txt` and `b.txt` do
not exist they keep their sizes and offsets, and the two containers differ. -/
theorem pack_keeps_stale_entries :
    (compress scenarioDisk zeroJunk (addAll [AddArg.path aTxt, AddArg.path bTxt]) outZp2).2 =
      [⟨aTxt, 2, 0⟩, ⟨bTxt, 0, 2⟩] ∧
    ([⟨aTxt, 2, 0⟩, ⟨bTxt, 0, 2⟩] : List File).map File.path =
      (addAll [AddArg.path aTxt, AddArg.path bTxt]).map File.path ∧
    (compress emptyDisk zeroJunk [⟨aTxt, 2, 0⟩, ⟨bTxt, 0, 2⟩] outZp2).1 outZp2 =
      some (File.serialize ⟨aTxt, 2, 0⟩ ++ File.serialize ⟨bTxt, 0, 2⟩ ++ encodeS64 58) ∧
    (compress emptyDisk zeroJunk (addAll [AddArg.path aTxt, AddArg.path bTxt]) outZp2).1
      outZp2 =
      some (File.serialize ⟨aTxt, 0, 0⟩ ++ File.serialize ⟨bTxt, 0, 0⟩ ++ encodeS64 58) ∧
    (compress emptyDisk zeroJunk [⟨aTxt, 2, 0⟩, ⟨bTxt, 0, 2⟩] outZp2).1 outZp2 ≠
      (compress emptyDisk zeroJunk (addAll [AddArg.path aTxt, AddArg.path bTxt]) outZp2).1
        outZp2 := by
  refine ⟨by decide, by decide, by decide, by decide, by decide⟩

/-! ## The command line -/

theorem findInfo_fiInfos (name : Path) :
    findInfo fiInfos name =
      if name = dcInfo.name ∨ name = dcInfo.longName then some dcInfo
      else if name = helpInfo.name ∨ name = helpInfo.longName then some helpInfo
      else if name = outInfo.name ∨ name = outInfo.longName then some outInfo
      else none := by
  simp only [findInfo, fiInfos, List.find?]
  by_cases h1 : name = dcInfo.name ∨ name = dcInfo.longName
  · simp [h1]
  · by_cases h2 : name = helpInfo.name ∨ name = helpInfo.longName
    · simp [h1, h2]
    · by_cases h3 : name = outInfo.name ∨ name = outInfo.longName
      · simp [h1, h2, h3]
      · simp [h1, h2, h3]

set_option maxRecDepth 100000 in
/-- The function `std::tolower` of the code lower-cases as the table of letters says. -/
theorem toLower_eq_lowerCased : toLower = lowerCased := by
  funext b
  revert b
  decide

theorem strip_eq (arg : Path) (h : arg.head? = some 45) :
    (if arg.getD 1 0 = 45 then arg.drop 2 else arg.drop 1) =
      (if arg.take 2 = [45, 45] then arg.drop 2 else arg.drop 1) := by
  cases arg with
  | nil => simp at h
  | cons a rest =>
    have ha : a = 45 := by simpa using h
    subst ha
    cases rest with
    | nil => simp
    | cons b rest2 => simp

theorem positionalsFrom_cons (b : Bool) (a : Path) (rest : List Path) :
    positionalsFrom b (a :: rest) =
      (if !startsWithDash a && !b then [a] else []) ++ positionalsFrom (isOutFlag a) rest := by
  simp only [positionalsFrom, List.map_cons, List.zip_cons_cons, List.filter_cons]
  split <;> simp

theorem positionalsFrom_nil (b : Bool) : positionalsFrom b [] = [] := rfl

theorem flag_kinds (arg : Path) (hsd : startsWithDash arg = true) :
    ((flagName arg = dcInfo.name ∨ flagName arg = dcInfo.longName) →
      isOutFlag arg = false ∧ isKnownFlag arg = true) ∧
    ((flagName arg = helpInfo.name ∨ flagName arg = helpInfo.longName) →
      isOutFlag arg = false ∧ isKnownFlag arg = true) ∧
    ((flagName arg = outInfo.name ∨ flagName arg = outInfo.longName) →
      isOutFlag arg = true ∧ isKnownFlag arg = true) ∧
    (¬ (flagName arg = dcInfo.name ∨ flagName arg = dcInfo.longName) →
      ¬ (flagName arg = helpInfo.name ∨ flagName arg = helpInfo.longName) →
      ¬ (flagName arg = outInfo.name ∨ flagName arg = outInfo.longName) →
      isOutFlag arg = false ∧ isKnownFlag arg = false) := by
  have mu : ∀ x : Path, x ∈ unpackNames ↔ (x = dcInfo.name ∨ x = dcInfo.longName) := by
    intro x
    simp [unpackNames, dcInfo]
  have mh : ∀ x : Path, x ∈ helpNames ↔ (x = helpInfo.name ∨ x = helpInfo.longName) := by
    intro x
    simp [helpNames, helpInfo]
  have mo : ∀ x : Path, x ∈ outNames ↔ (x = outInfo.name ∨ x = outInfo.longName) := by
    intro x
    simp [outNames, outInfo]
  refine ⟨?_, ?_, ?_, ?_⟩
  · rintro (h | h) <;> simp [isOutFlag, isKnownFlag, hsd, h] <;> decide
  · rintro (h | h) <;> simp [isOutFlag, isKnownFlag, hsd, h] <;> decide
  · rintro (h | h) <;> simp [isOutFlag, isKnownFlag, hsd, h] <;> decide
  · intro h1 h2 h3
    simp only [isOutFlag, isKnownFlag, hsd, List.mem_append, mu, mh, mo, h1, h2, h3, or_self,
      decide_False, Bool.and_false, and_self]

theorem expectedFlags_cons (a : Path) (rest : List Path) :
    expectedFlags (a :: rest) =
      if isKnownFlag a then
        { name := flagName a, value := if isOutFlag a then valueBehind rest else [] } ::
          expectedFlags rest
      else expectedFlags rest := by
  simp only [expectedFlags]

/-- The function `ProcessArguments` appends to the globals the positional arguments and
the flags of the elements it is given. -/
theorem processArguments_eq : ∀ (n : Nat) (args : List Path) (st : ClState),
    args.length ≤ n →
    ProcessArguments fiInfos args st =
      ⟨st.arguments ++ positionalsFrom false args, st.flags ++ expectedFlags args⟩ := by
  intro n
  induction n with
  | zero =>
    intro args st h
    have : args = [] := List.length_eq_zero.mp (by omega)
    subst this
    simp [ProcessArguments, positionalsFrom_nil, expectedFlags]
  | succ n ih =>
    intro args st h
    cases args with
    | nil => simp [ProcessArguments, positionalsFrom_nil, expectedFlags]
    | cons arg rest =>
      have hrest : rest.length ≤ n := by
        simp only [List.length_cons] at h
        omega
      by_cases hd : arg.head? = some 45
      · have hsd : startsWithDash arg = true := by simp [startsWithDash, hd]
        have hname : (if arg.getD 1 0 = 45 then arg.drop 2 else arg.drop 1).map toLower =
            flagName arg := by
          rw [strip_eq arg hd, toLower_eq_lowerCased]
          rfl
        obtain ⟨k1, k2, k3, k4⟩ := flag_kinds arg hsd
        rw [ProcessArguments]
        simp only [hd, if_true, hname, findInfo_fiInfos]
        by_cases h1 : flagName arg = dcInfo.name ∨ flagName arg = dcInfo.longName
        · obtain ⟨ho, hk⟩ := k1 h1
          rw [if_pos h1]
          simp only [dcInfo, Bool.false_eq_true, if_false]
          rw [ih rest _ hrest, positionalsFrom_cons, expectedFlags_cons]
          simp [hsd, ho, hk]
        · rw [if_neg h1]
          by_cases h2 : flagName arg = helpInfo.name ∨ flagName arg = helpInfo.longName
          · obtain ⟨ho, hk⟩ := k2 h2
            rw [if_pos h2]
            simp only [helpInfo, Bool.false_eq_true, if_false]
            rw [ih rest _ hrest, positionalsFrom_cons, expectedFlags_cons]
            simp [hsd, ho, hk]
          · rw [if_neg h2]
            by_cases h3 : flagName arg = outInfo.name ∨ flagName arg = outInfo.longName
            · obtain ⟨ho, hk⟩ := k3 h3
              rw [if_pos h3]
              simp only [outInfo, if_true]
              cases rest with
              | nil =>
                simp [positionalsFrom_cons, positionalsFrom_nil, expectedFlags_cons, expectedFlags, valueBehind, hsd, ho, hk]
              | cons next rest2 =>
                have hrest2 : rest2.length ≤ n := by
                  simp only [List.length_cons] at hrest
                  omega
                by_cases hnd : next.head? = some 45
                · have hnsd : startsWithDash next = true := by simp [startsWithDash, hnd]
                  simp only [hnd, ne_eq, not_true_eq_false, if_false]
                  rw [ih (next :: rest2) _ hrest]
                  simp only [positionalsFrom_cons, expectedFlags_cons arg]
                  simp [hsd, ho, hk, hnsd, valueBehind]
                · have hnsd : startsWithDash next = false := by simp [startsWithDash, hnd]
                  have hno : isOutFlag next = false := by simp [isOutFlag, hnsd]
                  have hnk : isKnownFlag next = false := by simp [isKnownFlag, hnsd]
                  simp only [hnd, ne_eq, not_false_eq_true, if_true]
                  rw [ih rest2 _ hrest2]
                  simp only [positionalsFrom_cons, expectedFlags_cons]
                  simp [hsd, ho, hk, hnsd, hno, hnk, valueBehind]
            · obtain ⟨ho, hk⟩ := k4 h1 h2 h3
              rw [if_neg h3]
              simp only
              rw [ih rest _ hrest, positionalsFrom_cons, expectedFlags_cons]
              simp [hsd, ho, hk]
      · have hsd : startsWithDash arg = false := by simp [startsWithDash, hd]
        have ho : isOutFlag arg = false := by simp [isOutFlag, hsd]
        have hk : isKnownFlag arg = false := by simp [isKnownFlag, hsd]
        rw [ProcessArguments]
        simp only [hd, if_false]
        rw [ih rest _ hrest, positionalsFrom_cons, expectedFlags_cons]
        simp [hsd, ho, hk]

theorem mem_positionalsFrom : ∀ (args : List Path) (b : Bool) (a : Path),
    a ∈ positionalsFrom b args → a ∈ args ∧ startsWithDash a = false := by
  intro args
  induction args with
  | nil => intro b a h; simp [positionalsFrom_nil] at h
  | cons x rest ih =>
    intro b a h
    rw [positionalsFrom_cons] at h
    rcases List.mem_append.mp h with h | h
    · split at h
      · rename_i hc
        have hax : a = x := by simpa using h
        subst hax
        simp only [Bool.and_eq_true, Bool.not_eq_true'] at hc
        exact ⟨List.mem_cons_self _ _, hc.1⟩
      · simp at h
    · have := ih _ a h
      exact ⟨List.mem_cons_of_mem _ this.1, this.2⟩

theorem valueBehind_noDash (rest : List Path) : startsWithDash (valueBehind rest) = false := by
  cases rest with
  | nil => rfl
  | cons next rest2 =>
    simp only [valueBehind]
    split
    · rfl
    · rename_i h
      simpa using h

theorem mem_expectedFlags : ∀ (args : List Path) (f : Flag), f ∈ expectedFlags args →
    (∃ a ∈ args, isKnownFlag a = true ∧ f.name = flagName a) ∧
    startsWithDash f.value = false := by
  intro args
  induction args with
  | nil => intro f h; simp [expectedFlags] at h
  | cons x rest ih =>
    intro f h
    rw [expectedFlags_cons] at h
    split at h
    · rename_i hk
      rcases List.mem_cons.mp h with h | h
      · subst h
        refine ⟨⟨x, List.mem_cons_self _ _, hk, rfl⟩, ?_⟩
        simp only
        split
        · exact valueBehind_noDash rest
        · rfl
      · obtain ⟨⟨a, ha, hka, hn⟩, hv⟩ := ih f h
        exact ⟨⟨a, List.mem_cons_of_mem _ ha, hka, hn⟩, hv⟩
    · obtain ⟨⟨a, ha, hka, hn⟩, hv⟩ := ih f h
      exact ⟨⟨a, List.mem_cons_of_mem _ ha, hka, hn⟩, hv⟩

/-- C20 (argument classification).  For every `argv[1..]` of non-empty strings,
`cl::ProcessArguments` leaves in `cl::arguments` exactly the elements that do not start
with `-` and do not immediately follow a recognised `-o` / `--out`, in their order, and
in `cl::flags` one flag for every recognised dash-prefixed element, a recognised `-o` /
`--out` taking the next element as value only when it exists and does not start with
`-`.  A dash-prefixed element whose lower-cased name is none of `dc`, `decompress`, `h`,
`help`, `o`, `out` appears neither in `cl::arguments` nor, as name or value, in
`cl::flags`. -/
theorem argument_classification (args : List Path) (_hne : ∀ a ∈ args, a ≠ []) :
    (ProcessArguments fiInfos args ⟨[], []⟩).arguments = expectedArguments args ∧
    (ProcessArguments fiInfos args ⟨[], []⟩).flags = expectedFlags args ∧
    (∀ a ∈ args, startsWithDash a = true → isKnownFlag a = false →
      a ∉ (ProcessArguments fiInfos args ⟨[], []⟩).arguments ∧
      ∀ f ∈ (ProcessArguments fiInfos args ⟨[], []⟩).flags,
        f.name ≠ flagName a ∧ f.value ≠ a) := by
  have h := processArguments_eq args.length args ⟨[], []⟩ (Nat.le_refl _)
  simp only [List.nil_append] at h
  rw [h]
  refine ⟨rfl, rfl, ?_⟩
  intro a _ hsd hk
  refine ⟨?_, ?_⟩
  · intro hmem
    have := (mem_positionalsFrom args false a hmem).2
    rw [hsd] at this
    exact absurd this (by decide)
  · intro f hf
    obtain ⟨⟨b, _, hkb, hn⟩, hv⟩ := mem_expectedFlags args f hf
    refine ⟨?_, ?_⟩
    · intro hname
      have hfb : flagName b = flagName a := by rw [← hn, hname]
      have hsb : startsWithDash b = true := by
        simp only [isKnownFlag, Bool.and_eq_true] at hkb
        exact hkb.1
      simp only [isKnownFlag, hsb, hsd, Bool.true_and, hfb] at hkb hk
      rw [hkb] at hk
      exact absurd hk (by decide)
    · intro hval
      rw [hval, hsd] at hv
      exact absurd hv (by decide)

/-- The line `--OUT d a.txt -X -O -DC b.txt --Help`, written in upper case: `d` is the
value of `--OUT`, stored under the name `out`; `-X` is dropped; `-O` takes no value
because `-DC` follows; `-DC` and `--Help` are stored as `dc` and `help`. -/
theorem argument_classification_witness :
    (∀ a ∈ [dashDashOutUpper, dName, aTxt, dashXUpper, dashOUpper, dashDcUpper, bTxt,
      dashDashHelpMixed], a ≠ []) ∧
    ProcessArguments fiInfos
      [dashDashOutUpper, dName, aTxt, dashXUpper, dashOUpper, dashDcUpper, bTxt,
        dashDashHelpMixed] ⟨[], []⟩ =
      ⟨[aTxt, bTxt],
        [⟨outInfo.longName, dName⟩, ⟨outInfo.name, []⟩, ⟨dcInfo.name, []⟩,
          ⟨helpInfo.longName, []⟩]⟩ := by
  have h := argument_classification
    [dashDashOutUpper, dName, aTxt, dashXUpper, dashOUpper, dashDcUpper, bTxt,
      dashDashHelpMixed] (by decide)
  have h1 : expectedArguments
      [dashDashOutUpper, dName, aTxt, dashXUpper, dashOUpper, dashDcUpper, bTxt,
        dashDashHelpMixed] = [aTxt, bTxt] := by decide
  have h2 : expectedFlags
      [dashDashOutUpper, dName, aTxt, dashXUpper, dashOUpper, dashDcUpper, bTxt,
        dashDashHelpMixed] =
      [⟨outInfo.longName, dName⟩, ⟨outInfo.name, []⟩, ⟨dcInfo.name, []⟩,
        ⟨helpInfo.longName, []⟩] := by decide
  have e : ∀ s : ClState, s = ⟨s.arguments, s.flags⟩ := fun s => rfl
  refine ⟨by decide, ?_⟩
  rw [e (ProcessArguments fiInfos _ _), h.1, h.2.1, h1, h2]

/-! ## Claims about `main` -/

/-- C13 (pack destination), on the code.  Without a destination flag the destination is
`out.zp2`, and when a flag named `o` is present it is the value of the first such flag.
But `main` looks the value up with `flag.name == "o"` only: for a destination flag given
as `--out d` alone the stored name is `out`, `std::find_if` returns `end()`, and `main`
indexes it.  For `fc --out d a.txt b.txt` there is no destination, for
`fc -o d a.txt b.txt` it is `d`, for `fc a.txt b.txt` it is `out.zp2`. -/
theorem pack_destination :
    (∀ flags : List Flag, hasFlag flags outInfo = false →
      packDestination flags = some outZp2) ∧
    (∀ (flags : List Flag) (f : Flag),
      flags.find? (fun g => decide (g.name = outInfo.name)) = some f →
      packDestination flags = some f.value) ∧
    (∀ flags : List Flag, hasFlag flags outInfo = true →
      (∀ f ∈ flags, f.name ≠ outInfo.name) → packDestination flags = none) ∧
    (parsed [progName, dashDashOut, dName, aTxt, bTxt]).flags = [⟨outInfo.longName, dName⟩] ∧
    packDestination (parsed [progName, dashDashOut, dName, aTxt, bTxt]).flags = none ∧
    packDestination (parsed [progName, dashO, dName, aTxt, bTxt]).flags = some dName ∧
    packDestination (parsed [progName, aTxt, bTxt]).flags = some outZp2 := by
  refine ⟨?_, ?_, ?_, by decide, by decide, by decide, by decide⟩
  · intro flags h
    simp [packDestination, h]
  · intro flags f h
    have hmem : f ∈ flags := List.mem_of_find?_eq_some h
    have hname : f.name = outInfo.name := by
      have := List.find?_some h
      simpa using this
    have hhas : hasFlag flags outInfo = true := by
      simp only [hasFlag, List.any_eq_true, decide_eq_true_eq]
      exact ⟨f, hmem, Or.inl hname⟩
    have h' : flags.find? (fun g => decide (g.name = [111])) = some f := h
    simp only [packDestination, hhas, if_true, h']
  · intro flags hhas hno
    have hfind : flags.find? (fun g => decide (g.name = [111])) = none := by
      rw [List.find?_eq_none]
      intro g hg
      have := hno g hg
      simpa [outInfo] using this
    simp only [packDestination, hhas, if_true, hfind]

/-! ## The exits of `decompress` -/

theorem deserializeFull_thrown (max_size : Nat) (f : File) (s : IStream) (r : File × IStream)
    (h : f.deserializeFull max_size s = Exit.thrown r) :
    max_size < (s.readU64 0).2 ∧ r = (f, (s.readU64 0).1) := by
  unfold File.deserializeFull at h
  dsimp only at h
  split at h
  · rename_i hc
    injection h with h
    exact ⟨hc.2, h.symm⟩
  · exact absurd h (by simp)

theorem deserializeFull_fresh (max_size : Nat) (s : IStream) :
    File.fresh.deserializeFull max_size s =
      if max_size < (s.readU64 0).2 then Exit.thrown (File.fresh, (s.readU64 0).1)
      else Exit.done (File.fresh.deserialize s) := by
  unfold File.deserializeFull
  dsimp only
  by_cases h : max_size < (s.readU64 0).2
  · have h0 : File.fresh.path.length < (s.readU64 0).2 := by
      simp only [File.fresh, List.length_nil]
      omega
    rw [if_pos ⟨h0, h⟩, if_pos h]
  · rw [if_neg (fun hc => h hc.2), if_neg h]

/-- Where the counter of the copy loop cannot overflow the loop is the one of
`copyLoopTrace`. -/
theorem copyLoopFull_eq (logAs : Option Path) (size : Int) (hsize : size ≤ 2 ^ 63 - 2 ^ 20) :
    ∀ (fuel : Nat) (fSize : Int) (st : CopyState),
      copyLoopFull logAs size fuel fSize st = some (copyLoopTrace logAs size fuel fSize st) := by
  intro fuel
  induction fuel with
  | zero => intro fSize st; rfl
  | succ fuel ih =>
    intro fSize st
    by_cases h : fSize < size
    · have hov : ¬ LLONG_MAX < fSize + BYTES_PER_CHUNK := by
        simp only [LLONG_MAX, BYTES_PER_CHUNK]
        norm_num at hsize ⊢
        omega
      simp only [copyLoopFull, copyLoopTrace, h, if_true, hov, if_false, ih, Option.map_some']
    · simp only [copyLoopFull, copyLoopTrace, h, if_false]

theorem copyFull_eq (logAs : Option Path) (size : Int) (st : CopyState)
    (hsize : size ≤ 2 ^ 63 - 2 ^ 20) :
    copyFull logAs size st = some (copyTrace logAs size st) :=
  copyLoopFull_eq logAs size hsize _ _ st

/-- Above `2 ^ 63 - 2 ^ 20` the counter of the copy loop overflows: from
`fSize = 2 ^ 63 - 2 ^ 20 - n * 2 ^ 20` on, the pass `n + 1` counted from here ends in the
overflow. -/
theorem copyLoopFull_overflow (logAs : Option Path) (size : Int)
    (hsize : 2 ^ 63 - 2 ^ 20 < size) :
    ∀ (n fuel : Nat) (fSize : Int) (st : CopyState),
      fSize + (n : Int) * 2 ^ 20 = 2 ^ 63 - 2 ^ 20 → n + 1 ≤ fuel →
      copyLoopFull logAs size fuel fSize st = none := by
  intro n
  induction n with
  | zero =>
    intro fuel fSize st hf hfuel
    obtain ⟨k, rfl⟩ : ∃ k, fuel = k + 1 := ⟨fuel - 1, by omega⟩
    have hlt : fSize < size := by
      norm_num at hf hsize ⊢
      omega
    have hov : LLONG_MAX < fSize + BYTES_PER_CHUNK := by
      simp only [LLONG_MAX, BYTES_PER_CHUNK]
      norm_num at hf ⊢
      omega
    simp only [copyLoopFull, hlt, if_true, hov]
  | succ n ih =>
    intro fuel fSize st hf hfuel
    obtain ⟨k, rfl⟩ : ∃ k, fuel = k + 1 := ⟨fuel - 1, by omega⟩
    have hlt : fSize < size := by
      push_cast at hf
      norm_num at hf hsize ⊢
      omega
    have hov : ¬ LLONG_MAX < fSize + BYTES_PER_CHUNK := by
      simp only [LLONG_MAX, BYTES_PER_CHUNK]
      push_cast at hf
      norm_num at hf ⊢
      omega
    have hnext : fSize + BYTES_PER_CHUNK + (n : Int) * 2 ^ 20 = 2 ^ 63 - 2 ^ 20 := by
      simp only [BYTES_PER_CHUNK]
      push_cast at hf
      norm_num at hf ⊢
      omega
    simp only [copyLoopFull, hlt, if_true, hov, if_false]
    rw [ih k _ _ hnext (by omega)]
    rfl

theorem copyFull_overflow (logAs : Option Path) (size : Int) (st : CopyState)
    (hsize : 2 ^ 63 - 2 ^ 20 < size) : copyFull logAs size st = none := by
  apply copyLoopFull_overflow logAs size hsize (2 ^ 43 - 1) size.toNat 0 st
  · norm_num
  · norm_num at hsize ⊢
    omega

/-- A pass of the index loop with all its exits, by cases: the exception of `resize`
for a length field above `max_size`; an overflow for a size above `2 ^ 63 - 2 ^ 20` or
for a record length that `processed` cannot take; the pass of `decompressStep`
otherwise. -/
theorem decompressStepFull_eq (max_size : Nat) (junk : Buffer) (st : UnpackState) :
    decompressStepFull max_size junk st =
      if max_size < (st.inp.readU64 0).2 then
        Exit.thrown { st with inp := (st.inp.readU64 0).1 }
      else if 2 ^ 63 - 2 ^ 20 < (File.fresh.deserialize st.inp).1.size ∨
          LLONG_MAX < (File.fresh.deserialize st.inp).1.recordLength ∨
          LLONG_MAX < st.processed + (File.fresh.deserialize st.inp).1.recordLength then
        Exit.undefined
      else Exit.done (decompressStep junk st) := by
  unfold decompressStepFull
  rw [deserializeFull_fresh]
  by_cases hthrow : max_size < (st.inp.readU64 0).2
  · simp only [hthrow, if_true]
  · simp only [hthrow, if_false]
    by_cases hsize : 2 ^ 63 - 2 ^ 20 < (File.fresh.deserialize st.inp).1.size
    · rw [copyFull_overflow _ _ _ hsize]
      simp only [hsize, true_or, if_true]
    · rw [copyFull_eq _ _ _ (by omega)]
      simp only [hsize, false_or]
      by_cases hov : LLONG_MAX < (File.fresh.deserialize st.inp).1.recordLength ∨
          LLONG_MAX < st.processed + (File.fresh.deserialize st.inp).1.recordLength
      · simp only [hov, if_true]
      · simp only [hov, if_false, copyTrace_fst, decompressStep]

theorem decompressStepFull_done (max_size : Nat) (junk : Buffer) (st st1 : UnpackState)
    (h : decompressStepFull max_size junk st = Exit.done st1) :
    st1 = decompressStep junk st ∧ st.processed + 24 ≤ st1.processed ∧
      st1.processed ≤ LLONG_MAX := by
  rw [decompressStepFull_eq] at h
  split at h
  · exact absurd h (by simp)
  · split at h
    · exact absurd h (by simp)
    · rename_i hov
      injection h with h
      subst h
      refine ⟨rfl, decompressStep_processed junk st, ?_⟩
      simp only [not_or, not_lt] at hov
      exact hov.2.2

theorem decompressStepFull_thrown (max_size : Nat) (junk : Buffer) (st st1 : UnpackState)
    (h : decompressStepFull max_size junk st = Exit.thrown st1) :
    max_size < (st.inp.readU64 0).2 ∧ st1 = { st with inp := (st.inp.readU64 0).1 } := by
  rw [decompressStepFull_eq] at h
  split at h
  · rename_i hc
    injection h with h
    exact ⟨hc, h.symm⟩
  · split at h
    · exact absurd h (by simp)
    · exact absurd h (by simp)

/-- The index loop begins at most `ceil((size - processed) / 24)` passes. -/
theorem decompressLoopFull_passes (max_size : Nat) (junk : Buffer) (size : Int) :
    ∀ (fuel : Nat) (st : UnpackState),
      (decompressLoopFull max_size junk size fuel st).2 ≤
        ((size - st.processed).toNat + 23) / 24 := by
  intro fuel
  induction fuel with
  | zero => intro st; simp [decompressLoopFull]
  | succ fuel ih =>
    intro st
    by_cases hlt : st.processed < size
    · simp only [decompressLoopFull, hlt, if_true]
      cases hstep : decompressStepFull max_size junk st with
      | done st1 =>
        have h24 := (decompressStepFull_done max_size junk st st1 hstep).2.1
        have := ih st1
        simp only
        omega
      | thrown st1 =>
        simp only
        omega
      | undefined =>
        simp only
        omega
    · simp [decompressLoopFull, hlt]

/-- With a bound of at least `size - processed` passes, an index loop that ends normally
has been left by its condition. -/
theorem decompressLoopFull_exits (max_size : Nat) (junk : Buffer) (size : Int) :
    ∀ (fuel : Nat) (st st1 : UnpackState), (size - st.processed).toNat ≤ fuel →
      (decompressLoopFull max_size junk size fuel st).1 = Exit.done st1 →
      size ≤ st1.processed := by
  intro fuel
  induction fuel with
  | zero =>
    intro st st1 h hd
    simp only [decompressLoopFull] at hd
    injection hd with hd
    subst hd
    omega
  | succ fuel ih =>
    intro st st1 h hd
    by_cases hlt : st.processed < size
    · simp only [decompressLoopFull, hlt, if_true] at hd
      cases hstep : decompressStepFull max_size junk st with
      | done st2 =>
        rw [hstep] at hd
        have h24 := (decompressStepFull_done max_size junk st st2 hstep).2.1
        exact ih st2 st1 (by omega) hd
      | thrown st2 =>
        rw [hstep] at hd
        exact absurd hd (by simp)
      | undefined =>
        rw [hstep] at hd
        exact absurd hd (by simp)
    · simp only [decompressLoopFull, hlt, if_false] at hd
      injection hd with hd
      subst hd
      omega

/-- An index loop that ends normally ends in the state `decompressLoop` gives. -/
theorem decompressLoopFull_done (max_size : Nat) (junk : Buffer) (size : Int) :
    ∀ (fuel : Nat) (st st1 : UnpackState),
      (decompressLoopFull max_size junk size fuel st).1 = Exit.done st1 →
      st1 = decompressLoop junk size fuel st := by
  intro fuel
  induction fuel with
  | zero =>
    intro st st1 hd
    simp only [decompressLoopFull] at hd
    injection hd with hd
    exact hd.symm
  | succ fuel ih =>
    intro st st1 hd
    by_cases hlt : st.processed < size
    · simp only [decompressLoopFull, hlt, if_true] at hd
      simp only [decompressLoop, hlt, if_true]
      cases hstep : decompressStepFull max_size junk st with
      | done st2 =>
        rw [hstep] at hd
        rw [← (decompressStepFull_done max_size junk st st2 hstep).1]
        exact ih st2 st1 hd
      | thrown st2 =>
        rw [hstep] at hd
        exact absurd hd (by simp)
      | undefined =>
        rw [hstep] at hd
        exact absurd hd (by simp)
    · simp only [decompressLoopFull, hlt, if_false] at hd
      simp only [decompressLoop, hlt, if_false]
      injection hd with hd
      exact hd.symm

/-- The start of `decompressFull` is the one of `decompress`. -/
theorem decompressFull_eq_entry (max_size : Nat) (fs : FS) (junk : Buffer) (file : Path) :
    decompressFull max_size fs junk file =
      if -(WORD : Int) - (decompressEntry fs file).1 < LLONG_MIN then Exit.undefined
      else
        match (decompressLoopFull max_size junk (decompressEntry fs file).1
          (decompressEntry fs file).1.toNat (decompressEntry fs file).2).1 with
        | Exit.done st => Exit.done (st.fs, st.log ++ [LogLine.extracted file])
        | Exit.thrown st => Exit.thrown (st.fs, st.log)
        | Exit.undefined => Exit.undefined := rfl

/-- Where `decompressFull` returns, it returns what `decompress` says. -/
theorem decompressFull_done (max_size : Nat) (fs : FS) (junk : Buffer) (file : Path)
    (r : FS × List LogLine) (h : decompressFull max_size fs junk file = Exit.done r) :
    r = decompress fs junk file := by
  rw [decompressFull_eq_entry] at h
  split at h
  · exact absurd h (by simp)
  · split at h
    · rename_i st hst
      have := decompressLoopFull_done max_size junk _ _ _ st hst
      injection h with h
      rw [← h, this, decompress_eq_entry, decompressLoopTrace_fst]
    · exact absurd h (by simp)
    · exact absurd h (by simp)

/-- On a failed stream a pass of the index loop throws nothing, opens no file and copies
nothing; it adds 24 to `processed`. -/
theorem decompressStepFull_failed (max_size : Nat) (junk : Buffer) (st : UnpackState)
    (h : st.inp.fail = true) (hp : st.processed + 24 ≤ LLONG_MAX) :
    decompressStepFull max_size junk st =
      Exit.done { st with processed := st.processed + 24 } := by
  have hlen : (st.inp.readU64 0).2 = 0 := by
    simp [IStream.readU64, IStream.read, IStream.get, h, decodeU64_zero]
  have hd := deserialize_failed st.inp h
  rw [decompressStepFull_eq, hlen, hd, decompressStep_failed junk st h]
  have h1 : ¬ max_size < 0 := by omega
  have h2 : ¬ ((2 : Int) ^ 63 - 2 ^ 20 < File.fresh.size ∨
      LLONG_MAX < File.fresh.recordLength ∨
      LLONG_MAX < st.processed + File.fresh.recordLength) := by
    simp only [File.fresh, File.recordLength, WORD, LLONG_MAX, List.length_nil] at hp ⊢
    norm_num at hp ⊢
    omega
  rw [if_neg h1, if_neg h2]

/-- On a failed stream the index loop returns, whatever the trailer up to `2 ^ 63 - 8`:
it touches no file and logs nothing. -/
theorem decompressLoopFull_failed (max_size : Nat) (junk : Buffer) (size : Int)
    (hsize : size ≤ 2 ^ 63 - 8) :
    ∀ (fuel : Nat) (st : UnpackState), st.inp.fail = true → 0 ≤ st.processed →
      st.processed % 24 = 0 →
      ∃ st1, (decompressLoopFull max_size junk size fuel st).1 = Exit.done st1 ∧
        st1.fs = st.fs ∧ st1.log = st.log := by
  intro fuel
  induction fuel with
  | zero => intro st _ _ _; exact ⟨st, rfl, rfl, rfl⟩
  | succ fuel ih =>
    intro st h h0 hm
    by_cases hlt : st.processed < size
    · have hp : st.processed + 24 ≤ LLONG_MAX := by
        simp only [LLONG_MAX]
        norm_num at hsize ⊢
        omega
      simp only [decompressLoopFull, hlt, if_true, decompressStepFull_failed max_size junk st h hp]
      exact ih { st with processed := st.processed + 24 } h (by simp only; omega)
        (by simp only; omega)
    · simp only [decompressLoopFull, hlt, if_false]
      exact ⟨st, rfl, rfl, rfl⟩

/-- C10 (malformed container), amended.  For every existing container of at least 8
bytes whose trailer value is negative, or exceeds `length - 8` and is at most
`2 ^ 63 - 8`, `decompress` returns: it has created, truncated and written no file, the
filesystem is as it was, and it has logged the loading line and the line that reports
success, nothing else.  For a trailer value above `2 ^ 63 - 8` the offset of the seek
overflows and the behaviour is undefined. -/
theorem decompress_bad_trailer (max_size : Nat) (fs : FS) (junk : Buffer) (file : Path)
    (bytes : List Byte) (hc : fs.lookup file = some bytes) (h8 : 8 ≤ bytes.length) :
    ((trailerOf bytes < 0 ∨
        ((bytes.length : Int) - 8 < trailerOf bytes ∧ trailerOf bytes ≤ 2 ^ 63 - 8)) →
      decompressFull max_size fs junk file =
        Exit.done (fs, [LogLine.loading file, LogLine.extracted file])) ∧
    (2 ^ 63 - 8 < trailerOf bytes → decompressFull max_size fs junk file = Exit.undefined) := by
  have he := decompressEntry_eq fs file bytes hc h8
  rw [decompressFull_eq_entry, he]
  simp only
  refine ⟨?_, ?_⟩
  · intro hbad
    have hno : ¬ (-(WORD : Int) - trailerOf bytes < LLONG_MIN) := by
      simp only [WORD, LLONG_MIN]
      norm_num
      rcases hbad with hneg | ⟨_, hle⟩
      · omega
      · norm_num at hle
        omega
    rw [if_neg hno]
    rcases hbad with hneg | ⟨hbig, hle⟩
    · have hfuel : (trailerOf bytes).toNat = 0 := by omega
      rw [hfuel]
      rfl
    · have hfail : (IStream.seekTo ⟨bytes, bytes.length, false⟩
          ((bytes.length : Int) + (-(8 : Int) - trailerOf bytes))).fail = true := by
        have : (bytes.length : Int) + (-(8 : Int) - trailerOf bytes) < 0 := by omega
        simp [IStream.seekTo, this]
      obtain ⟨st1, h1, h2, h3⟩ := decompressLoopFull_failed max_size junk (trailerOf bytes) hle
        (trailerOf bytes).toNat
        { fs := fs,
          inp := IStream.seekTo ⟨bytes, bytes.length, false⟩
            ((bytes.length : Int) + (-(8 : Int) - trailerOf bytes)),
          log := [LogLine.loading file], processed := 0 } hfail (le_refl _) rfl
      rw [h1]
      simp only at h2 h3 ⊢
      rw [h2, h3]
      rfl
  · intro hhuge
    have hov : -(WORD : Int) - trailerOf bytes < LLONG_MIN := by
      simp only [WORD, LLONG_MIN]
      norm_num at hhuge ⊢
      omega
    rw [if_pos hov]

/-- A container whose trailer is `-1` and one whose trailer is 100, more than its
length allows, are unpacked without a failure and without touching the directory; for
a container whose trailer is `2 ^ 63 - 1` the behaviour is undefined. -/
theorem decompress_bad_trailer_witness :
    trailerOf (encodeS64 (-1)) = -1 ∧
    decompressFull maxString negativeDisk zeroJunk outZp2 =
      Exit.done (negativeDisk, [LogLine.loading outZp2, LogLine.extracted outZp2]) ∧
    trailerOf (encodeS64 100) = 100 ∧
    decompressFull maxString longTrailerDisk zeroJunk outZp2 =
      Exit.done (longTrailerDisk, [LogLine.loading outZp2, LogLine.extracted outZp2]) ∧
    trailerOf (encodeS64 (2 ^ 63 - 1)) = 2 ^ 63 - 1 ∧
    decompressFull maxString hugeTrailerDisk zeroJunk outZp2 = Exit.undefined :=
  ⟨by decide,
    (decompress_bad_trailer maxString negativeDisk zeroJunk outZp2 (encodeS64 (-1)) (by decide)
      (by decide)).1 (Or.inl (by decide)),
    by decide,
    (decompress_bad_trailer maxString longTrailerDisk zeroJunk outZp2 (encodeS64 100) (by decide)
      (by decide)).1 (Or.inr ⟨by decide, by decide⟩),
    by decide,
    (decompress_bad_trailer maxString hugeTrailerDisk zeroJunk outZp2 (encodeS64 (2 ^ 63 - 1))
      (by decide) (by decide)).2 (by decide)⟩

/-- C10 as stated fails: the index record of `overrunContainer` ends at byte 25, behind
the index boundary 24 given by its trailer, yet `decompress` returns with the success
line logged and no other report, having truncated the existing file `a`. -/
theorem decompress_accepts_overrun :
    trailerOf overrunContainer = 24 ∧
    (readIndex overrunContainer).2 = 25 ∧
    overrunDisk aName = some hi ∧
    (decompressFull maxString overrunDisk zeroJunk outZp2).returned.map
      (fun r => (r.1 aName, r.2)) =
      some (some [], [LogLine.loading outZp2, LogLine.extracted outZp2]) := by
  refine ⟨by decide, by decide, by decide, by decide⟩

/-- C18 (termination), amended.  With the bound of `resize` below `2 ^ 63`, `decompress`
ends on every input, in one of three ways: it returns, or an exception leaves it, or a
signed integer overflows.  Every pass of the index loop that is completed adds at least
24 to `processed`.  A pass is left by the exception only when the length field read
exceeds the bound of `resize`; `processed` is then unchanged and no file or log line has
been added.  For every file read as a container the loop begins at most
`ceil(trailer / 24)` passes, none when the value read as trailer is zero or negative,
and a loop that ends normally has been left by its condition; above `2 ^ 63 - 8` the
trailer makes the offset of the seek overflow, up to it `decompress` ends as this loop
does.  A copy loop for a `size` of at most
`2 ^ 63 - 2 ^ 20` makes `ceil(size / 0x100000)` passes, none for `size <= 0`; above that
its counter overflows. -/
theorem decompress_terminates (max_size : Nat) (_hmax : max_size < 2 ^ 63) (junk : Buffer) :
    (∀ st st1 : UnpackState, decompressStepFull max_size junk st = Exit.done st1 →
      st.processed + 24 ≤ st1.processed) ∧
    (∀ st st1 : UnpackState, decompressStepFull max_size junk st = Exit.thrown st1 →
      max_size < (st.inp.readU64 0).2 ∧ st1.processed = st.processed ∧ st1.fs = st.fs ∧
        st1.log = st.log) ∧
    (∀ (fs : FS) (file : Path),
      (decompressLoopFull max_size junk (decompressEntry fs file).1
        (decompressEntry fs file).1.toNat (decompressEntry fs file).2).2 ≤
          ((decompressEntry fs file).1.toNat + 23) / 24 ∧
      ((decompressEntry fs file).1 ≤ 0 →
        decompressLoopFull max_size junk (decompressEntry fs file).1
          (decompressEntry fs file).1.toNat (decompressEntry fs file).2 =
            (Exit.done (decompressEntry fs file).2, 0)) ∧
      (∀ st1 : UnpackState,
        (decompressLoopFull max_size junk (decompressEntry fs file).1
          (decompressEntry fs file).1.toNat (decompressEntry fs file).2).1 = Exit.done st1 →
        (decompressEntry fs file).1 ≤ st1.processed) ∧
      (2 ^ 63 - 8 < (decompressEntry fs file).1 →
        decompressFull max_size fs junk file = Exit.undefined) ∧
      ((decompressEntry fs file).1 ≤ 2 ^ 63 - 8 →
        (decompressFull max_size fs junk file).returned =
          (decompressLoopFull max_size junk (decompressEntry fs file).1
            (decompressEntry fs file).1.toNat (decompressEntry fs file).2).1.returned.map
              (fun st => (st.fs, st.log ++ [LogLine.extracted file])) ∧
        (decompressFull max_size fs junk file).raised =
          (decompressLoopFull max_size junk (decompressEntry fs file).1
            (decompressEntry fs file).1.toNat (decompressEntry fs file).2).1.raised.map
              (fun st => (st.fs, st.log))) ∧
      (∀ bytes : List Byte, fs.lookup file = some bytes → 8 ≤ bytes.length →
        (decompressEntry fs file).1 = trailerOf bytes) ∧
      ((∃ r, decompressFull max_size fs junk file = Exit.done r) ∨
        (∃ r, decompressFull max_size fs junk file = Exit.thrown r) ∨
        decompressFull max_size fs junk file = Exit.undefined)) ∧
    (∀ (logAs : Option Path) (size : Int) (st : CopyState), size ≤ 2 ^ 63 - 2 ^ 20 →
      ∃ (c : CopyState) (chunks : List Nat), copyFull logAs size st = some (c, chunks) ∧
        chunks.length = (size.toNat + BYTES_PER_CHUNK - 1) / BYTES_PER_CHUNK) ∧
    (∀ (logAs : Option Path) (size : Int) (st : CopyState), 2 ^ 63 - 2 ^ 20 < size →
      copyFull logAs size st = none) := by
  refine ⟨?_, ?_, ?_, ?_, ?_⟩
  · intro st st1 h
    exact (decompressStepFull_done max_size junk st st1 h).2.1
  · intro st st1 h
    obtain ⟨h1, h2⟩ := decompressStepFull_thrown max_size junk st st1 h
    subst h2
    exact ⟨h1, rfl, rfl, rfl⟩
  · intro fs file
    have hp : (decompressEntry fs file).2.processed = 0 := rfl
    refine ⟨?_, ?_, ?_, ?_, ?_, fun bytes hc h8 => decompressEntry_size fs file bytes hc h8, ?_⟩
    rotate_right
    · cases h : decompressFull max_size fs junk file with
      | done r => exact Or.inl ⟨r, rfl⟩
      | thrown r => exact Or.inr (Or.inl ⟨r, rfl⟩)
      | undefined => exact Or.inr (Or.inr rfl)
    · have := decompressLoopFull_passes max_size junk (decompressEntry fs file).1
        (decompressEntry fs file).1.toNat (decompressEntry fs file).2
      rw [hp, sub_zero] at this
      exact this
    · intro h
      have h0 : (decompressEntry fs file).1.toNat = 0 := by omega
      rw [h0]
      rfl
    · intro st1 h
      apply decompressLoopFull_exits max_size junk _ _ _ st1 _ h
      rw [hp, sub_zero]
    · intro h
      have hov : -(WORD : Int) - (decompressEntry fs file).1 < LLONG_MIN := by
        simp only [WORD, LLONG_MIN]
        norm_num at h ⊢
        omega
      rw [decompressFull_eq_entry, if_pos hov]
    · intro h
      have hno : ¬ (-(WORD : Int) - (decompressEntry fs file).1 < LLONG_MIN) := by
        simp only [WORD, LLONG_MIN]
        norm_num at h ⊢
        omega
      rw [decompressFull_eq_entry, if_neg hno]
      generalize (decompressLoopFull max_size junk (decompressEntry fs file).1
        (decompressEntry fs file).1.toNat (decompressEntry fs file).2).1 = L
      cases L <;> exact ⟨rfl, rfl⟩
  · intro logAs size st h
    refine ⟨(copyTrace logAs size st).1, (copyTrace logAs size st).2,
      copyFull_eq logAs size st h, ?_⟩
    rw [copyTrace_chunks, chunks_length]
  · intro logAs size st h
    exact copyFull_overflow logAs size st h

/-- The index loop on `corruptContainer`, whose trailer is 24, begins at most one
pass. -/
theorem decompress_terminates_witness :
    maxString < 2 ^ 63 ∧
    ((decompressEntry corruptDisk outZp2).1.toNat + 23) / 24 = 1 ∧
    (decompressLoopFull maxString zeroJunk (decompressEntry corruptDisk outZp2).1
      (decompressEntry corruptDisk outZp2).1.toNat (decompressEntry corruptDisk outZp2).2).2 ≤
        ((decompressEntry corruptDisk outZp2).1.toNat + 23) / 24 :=
  ⟨by decide, by decide,
    ((decompress_terminates maxString (by decide) zeroJunk).2.2.1 corruptDisk outZp2).1⟩

/-- C18 as stated fails: the 24 index bytes of `corruptContainer` begin with the length
field `2 ^ 64 - 1`.  The first pass of the index loop is left by the exception of
`resize` with `processed` still 0, not 24 or more; `decompress` does not return, and
what it has logged is the loading line. -/
theorem decompress_pass_throws :
    trailerOf corruptContainer = 24 ∧
    ((decompressEntry corruptDisk outZp2).2.inp.readU64 0).2 = 2 ^ 64 - 1 ∧
    (decompressStepFull maxString zeroJunk (decompressEntry corruptDisk outZp2).2).raised.map
      (fun st => st.processed) = some 0 ∧
    (decompressStepFull maxString zeroJunk (decompressEntry corruptDisk outZp2).2).returned.map
      (fun st => st.processed) = none ∧
    (decompressFull maxString corruptDisk zeroJunk outZp2).returned.map (fun r => r.2) = none ∧
    (decompressFull maxString corruptDisk zeroJunk outZp2).raised.map (fun r => r.2) =
      some [LogLine.loading outZp2] := by
  refine ⟨by decide, by decide, by decide, by decide, by decide, by decide⟩

/-! ## The exit code of `main` -/

/-- The test `cl::hasFlag(fiInfos[j])` on the parsed flags tells whether a flag with the
name or the long name of that entry is given. -/
theorem hasFlag_expectedFlags (fi : FlagInfo) (hfi : fi ∈ fiInfos) :
    ∀ args : List Path,
      hasFlag (expectedFlags args) fi = flagGiven [fi.name, fi.longName] args := by
  have hknown : ∀ a : Path, startsWithDash a = true →
      (flagName a = fi.name ∨ flagName a = fi.longName) → isKnownFlag a = true := by
    intro a hsd hname
    simp only [fiInfos, List.mem_cons, List.mem_singleton, List.not_mem_nil, or_false] at hfi
    obtain ⟨k1, k2, k3, _⟩ := flag_kinds a hsd
    rcases hfi with rfl | rfl | rfl
    · exact (k1 hname).2
    · exact (k2 hname).2
    · exact (k3 hname).2
  intro args
  induction args with
  | nil => rfl
  | cons a rest ih =>
    rw [expectedFlags_cons]
    have hg : flagGiven [fi.name, fi.longName] (a :: rest) =
        ((startsWithDash a && decide (flagName a = fi.name ∨ flagName a = fi.longName)) ||
          flagGiven [fi.name, fi.longName] rest) := by
      simp [flagGiven]
    rw [hg, ← ih]
    by_cases hk : isKnownFlag a = true
    · have hsd : startsWithDash a = true := by
        simp only [isKnownFlag, Bool.and_eq_true] at hk
        exact hk.1
      simp [hk, hsd, hasFlag]
    · have hno : (startsWithDash a &&
          decide (flagName a = fi.name ∨ flagName a = fi.longName)) = false := by
        by_contra hc
        simp only [Bool.not_eq_false, Bool.and_eq_true, decide_eq_true_eq] at hc
        exact hk (hknown a hc.1 hc.2)
      rw [hno, if_neg hk, Bool.false_or]

/-- The globals after `ProcessArguments`, in the words of the classification. -/
theorem parsed_eq (argv : List Path) :
    parsed argv = ⟨expectedArguments (argv.drop 1), expectedFlags (argv.drop 1)⟩ := by
  have h := processArguments_eq (argv.drop 1).length (argv.drop 1) ⟨[], []⟩ (Nat.le_refl _)
  simp only [List.nil_append] at h
  exact h
/-- Where no destination flag is given, or one is given as `-o`, `main` finds a
destination to pass to `compress`. -/
theorem packDestination_found (args : List Path)
    (h : flagGiven outNames args = false ∨ flagGiven shortOutNames args = true) :
    packDestination (expectedFlags args) ≠ none := by
  have hout : hasFlag (expectedFlags args) outInfo = flagGiven outNames args :=
    hasFlag_expectedFlags outInfo (by simp [fiInfos]) args
  rcases h with h | h
  · rw [h] at hout
    simp [packDestination, hout]
  · have hmem : ∃ a ∈ args, startsWithDash a = true ∧ flagName a = [111] := by
      simpa [flagGiven, shortOutNames] using h
    obtain ⟨a, ha, hsd, hn⟩ := hmem
    have hk : isKnownFlag a = true := by
      simp [isKnownFlag, hsd, hn, unpackNames, helpNames, outNames]
    have hfl : ∃ f ∈ expectedFlags args, f.name = [111] := by
      clear h hout
      induction args with
      | nil => simp at ha
      | cons x rest ih =>
        rw [expectedFlags_cons]
        rcases List.mem_cons.mp ha with hx | hx
        · subst hx
          rw [if_pos hk]
          exact ⟨_, List.mem_cons_self _ _, hn⟩
        · obtain ⟨f, hf, hfn⟩ := ih hx
          split
          · exact ⟨f, List.mem_cons_of_mem _ hf, hfn⟩
          · exact ⟨f, hf, hfn⟩
    obtain ⟨f, hf, hfn⟩ := hfl
    have hsome : ((expectedFlags args).find? (fun g => decide (g.name = [111]))).isSome = true := by
      rw [List.find?_isSome]
      exact ⟨f, hf, by simpa using hfn⟩
    obtain ⟨g, hg⟩ := Option.isSome_iff_exists.mp hsome
    simp only [packDestination, hg]
    split <;> simp

/-- The function `main`, with the globals in the words of the classification. -/
theorem main_eq (max_size : Nat) (fs : FS) (junk : Buffer) (argv : List Path) :
    main max_size fs junk argv =
      if (decide ((expectedArguments (argv.drop 1)).length < 2) &&
            !flagGiven unpackNames (argv.drop 1)) ||
          (decide ((expectedArguments (argv.drop 1)).length < 1) &&
            flagGiven unpackNames (argv.drop 1)) ||
          flagGiven helpNames (argv.drop 1) then Outcome.returned 1 true fs
      else if flagGiven unpackNames (argv.drop 1) then
        match decompressFull max_size fs junk ((expectedArguments (argv.drop 1)).headD []) with
        | Exit.done r => Outcome.returned 0 false r.1
        | Exit.thrown r => Outcome.aborted r.1
        | Exit.undefined => Outcome.undefined
      else
        match packDestination (parsed argv).flags with
        | some out =>
          Outcome.returned 0 false
            (compress fs junk ((expectedArguments (argv.drop 1)).foldl addString []) out).1
        | none => Outcome.undefined := by
  have hp := parsed_eq argv
  have hdc : hasFlag (expectedFlags (argv.drop 1)) dcInfo =
      flagGiven unpackNames (argv.drop 1) :=
    hasFlag_expectedFlags dcInfo (by simp [fiInfos]) (argv.drop 1)
  have hh : hasFlag (expectedFlags (argv.drop 1)) helpInfo =
      flagGiven helpNames (argv.drop 1) :=
    hasFlag_expectedFlags helpInfo (by simp [fiInfos]) (argv.drop 1)
  have hm : main max_size fs junk argv =
      if (decide ((parsed argv).arguments.length < 2) && !hasFlag (parsed argv).flags dcInfo) ||
          (decide ((parsed argv).arguments.length < 1) && hasFlag (parsed argv).flags dcInfo) ||
          hasFlag (parsed argv).flags helpInfo then Outcome.returned 1 true fs
      else if hasFlag (parsed argv).flags dcInfo then
        match decompressFull max_size fs junk ((parsed argv).arguments.headD []) with
        | Exit.done r => Outcome.returned 0 false r.1
        | Exit.thrown r => Outcome.aborted r.1
        | Exit.undefined => Outcome.undefined
      else
        match packDestination (parsed argv).flags with
        | some out =>
          Outcome.returned 0 false
            (compress fs junk ((parsed argv).arguments.foldl addString []) out).1
        | none => Outcome.undefined := rfl
  rw [hm]
  have ha : (parsed argv).arguments = expectedArguments (argv.drop 1) := by rw [hp]
  have hf : (parsed argv).flags = expectedFlags (argv.drop 1) := by rw [hp]
  rw [ha]
  simp only [hf, hdc, hh]

/-- C12 (exit code), amended.  For every argument vector of non-empty strings, `argv[0]`
included, and with the bound of `resize` below `2 ^ 63`, `main` returns 1 exactly when the help flag is given, or the mode is pack and
there are fewer than 2 positional arguments, or the mode is unpack and there is none; the
positional arguments are the elements that do not start with `-` and do not immediately
follow a recognised `-o` / `--out`.  It prints the usage text exactly when it returns 1.
In every other case of unpack mode the end of `main` depends on the container: it returns
0 exactly when `decompress` returns, and it ends in `std::terminate`, without an exit
code, exactly when an exception leaves `decompress`.  In every other case of pack mode,
`main` returns 0, whatever the filesystem holds, when no destination flag is given or
one is given as `-o`. -/
theorem main_exit_code (max_size : Nat) (_hmax : max_size < 2 ^ 63) (fs : FS) (junk : Buffer)
    (argv : List Path) (_hargc : 1 ≤ argv.length) (_hne : ∀ a ∈ argv, a ≠ []) :
    ((main max_size fs junk argv).code = some 1 ↔
      (flagGiven helpNames (argv.drop 1) = true ∨
        (flagGiven unpackNames (argv.drop 1) = false ∧
          (expectedArguments (argv.drop 1)).length < 2) ∨
        (flagGiven unpackNames (argv.drop 1) = true ∧
          (expectedArguments (argv.drop 1)).length < 1))) ∧
    ((main max_size fs junk argv).usage = true ↔ (main max_size fs junk argv).code = some 1) ∧
    (flagGiven helpNames (argv.drop 1) = false → flagGiven unpackNames (argv.drop 1) = true →
      1 ≤ (expectedArguments (argv.drop 1)).length →
      ((main max_size fs junk argv).code = some 0 ↔
        (decompressFull max_size fs junk
          ((expectedArguments (argv.drop 1)).headD [])).returned.isSome = true) ∧
      ((main max_size fs junk argv).aborts = true ↔
        (decompressFull max_size fs junk
          ((expectedArguments (argv.drop 1)).headD [])).raised.isSome = true) ∧
      ((main max_size fs junk argv).code = some 0 ∨ (main max_size fs junk argv).code = none)) ∧
    (flagGiven helpNames (argv.drop 1) = false → flagGiven unpackNames (argv.drop 1) = false →
      2 ≤ (expectedArguments (argv.drop 1)).length →
      (flagGiven outNames (argv.drop 1) = false ∨
        flagGiven shortOutNames (argv.drop 1) = true) →
      (main max_size fs junk argv).code = some 0) := by
  have hpf : (flagGiven outNames (argv.drop 1) = false ∨
      flagGiven shortOutNames (argv.drop 1) = true) →
      packDestination (parsed argv).flags ≠ none := by
    intro h
    have hf : (parsed argv).flags = expectedFlags (argv.drop 1) := by rw [parsed_eq]
    rw [hf]
    exact packDestination_found (argv.drop 1) h
  revert hpf
  rw [main_eq]
  generalize flagGiven helpNames (argv.drop 1) = H
  generalize flagGiven unpackNames (argv.drop 1) = D
  generalize flagGiven outNames (argv.drop 1) = O
  generalize flagGiven shortOutNames (argv.drop 1) = S
  generalize (expectedArguments (argv.drop 1)).length = A
  generalize decompressFull max_size fs junk ((expectedArguments (argv.drop 1)).headD []) = R
  generalize packDestination (parsed argv).flags = P
  intro hpf
  refine ⟨?_, ?_, ?_, ?_⟩
  · cases H <;> cases D <;> by_cases h2 : A < 2 <;> by_cases h1 : A < 1 <;>
      cases R <;> cases P <;> simp [h1, h2, Outcome.code]
  · cases H <;> cases D <;> by_cases h2 : A < 2 <;> by_cases h1 : A < 1 <;>
      cases R <;> cases P <;> simp [h1, h2, Outcome.code, Outcome.usage]
  · intro hh hd h1
    have h1n : ¬ A < 1 := by omega
    subst hh hd
    cases R <;> simp [h1n, Outcome.code, Outcome.aborts, Exit.returned, Exit.raised]
  · intro hh hd h2 hdest
    have h2n : ¬ A < 2 := by omega
    have hfound := hpf hdest
    subst hh hd
    cases P with
    | none => exact absurd rfl hfound
    | some out => simp [h2n, Outcome.code]

/-- Two lines.  `fc -DC out.zp2` on the directory of the corrupt container: none of the
three conditions holds, so the exit code is not 1, and `main` ends in `std::terminate`
exactly when an exception leaves `decompress`.  `fc -O d a.txt b.txt` on the directory
of the scenario: pack mode with the destination given as `-O`, and the exit code 0. -/
theorem main_exit_code_witness :
    maxString < 2 ^ 63 ∧ 1 ≤ [progName, dashDcUpper, outZp2].length ∧
    (∀ a ∈ [progName, dashDcUpper, outZp2], a ≠ []) ∧
    flagGiven helpNames ([progName, dashDcUpper, outZp2].drop 1) = false ∧
    flagGiven unpackNames ([progName, dashDcUpper, outZp2].drop 1) = true ∧
    expectedArguments ([progName, dashDcUpper, outZp2].drop 1) = [outZp2] ∧
    ((main maxString corruptDisk zeroJunk [progName, dashDcUpper, outZp2]).code = some 1 ↔
      (flagGiven helpNames ([progName, dashDcUpper, outZp2].drop 1) = true ∨
        (flagGiven unpackNames ([progName, dashDcUpper, outZp2].drop 1) = false ∧
          (expectedArguments ([progName, dashDcUpper, outZp2].drop 1)).length < 2) ∨
        (flagGiven unpackNames ([progName, dashDcUpper, outZp2].drop 1) = true ∧
          (expectedArguments ([progName, dashDcUpper, outZp2].drop 1)).length < 1))) ∧
    ((main maxString corruptDisk zeroJunk [progName, dashDcUpper, outZp2]).aborts = true ↔
      (decompressFull maxString corruptDisk zeroJunk
        ((expectedArguments ([progName, dashDcUpper, outZp2].drop 1)).headD [])).raised.isSome =
          true) ∧
    (∀ a ∈ [progName, dashOUpper, dName, aTxt, bTxt], a ≠ []) ∧
    flagGiven shortOutNames ([progName, dashOUpper, dName, aTxt, bTxt].drop 1) = true ∧
    (main maxString scenarioDisk zeroJunk [progName, dashOUpper, dName, aTxt, bTxt]).code =
      some 0 :=
  ⟨by decide, by decide, by decide, by decide, by decide, by decide,
    (main_exit_code maxString (by decide) corruptDisk zeroJunk [progName, dashDcUpper, outZp2]
      (by decide) (by decide)).1,
    ((main_exit_code maxString (by decide) corruptDisk zeroJunk [progName, dashDcUpper, outZp2]
      (by decide) (by decide)).2.2.1 (by decide) (by decide) (by decide)).2.1,
    by decide, by decide,
    (main_exit_code maxString (by decide) scenarioDisk zeroJunk
      [progName, dashOUpper, dName, aTxt, bTxt] (by decide) (by decide)).2.2.2 (by decide)
      (by decide) (by decide) (Or.inr (by decide))⟩

/-- C12 as stated fails: for `fc -dc out.zp2` (unpack mode, one positional argument, no
help flag) the claim promises the exit code 0 on every filesystem.  Where `out.zp2` is
`corruptContainer`, `std::length_error` leaves `decompress` and `main`: the program ends
in `std::terminate` and `main` returns no code.  Where `out.zp2` is the container of the
scenario, `main` returns 0. -/
theorem main_aborts_on_corrupt_container :
    (∀ a ∈ [progName, dashDc, outZp2], a ≠ []) ∧
    flagGiven helpNames [dashDc, outZp2] = false ∧
    flagGiven unpackNames [dashDc, outZp2] = true ∧
    expectedArguments [dashDc, outZp2] = [outZp2] ∧
    (main maxString corruptDisk zeroJunk [progName, dashDc, outZp2]).code = none ∧
    (main maxString corruptDisk zeroJunk [progName, dashDc, outZp2]).aborts = true ∧
    (main maxString (emptyDisk.write outZp2 scenarioContainer) zeroJunk
      [progName, dashDc, outZp2]).code = some 0 := by
  refine ⟨by decide, by decide, by decide, by decide, by decide, by decide, by decide⟩

end fc
